import Mathlib

/-!
# Verification of `YulControlFlowGraphExporter`

Shallow embedding of `libyul/YulControlFlowGraphExporter.cpp` (solidity):
the exporter walks a control-flow graph breadth-first from the root set
(main entry followed by every function entry), assigns integer block IDs
lazily via a memoized counter, and serializes every visited block and its
exit terminator to JSON.

Blocks are addressed by arena index (`Nat`): block identity in the C++
source is pointer identity, which the index models, exactly as suggested
by the design notes of the specification.
-/

namespace YulCFGExport

/-- A JSON value, restricted to the shapes the exporter produces.
Objects keep their fields in insertion order. -/
inductive Json where
  | str (s : String)
  | arr (elems : List Json)
  | obj (fields : List (String × Json))
deriving Repr

/-- Look a key up in a JSON object (`none` on non-objects and absent keys). -/
def Json.getField : Json → String → Option Json
  | .obj fields, k => fields.lookup k
  | _, _ => none

/-- The keys of a JSON object, in insertion order. -/
def Json.keys : Json → List String
  | .obj fields => fields.map Prod.fst
  | _ => []

/-- Modelled from the spec: a stack slot is an opaque value with a canonical
string form; the exporter never interprets it, only renders it (the concrete
`StackSlot` variant type and `stackSlotToString` live outside the sampled
source).  We identify a slot with its canonical string. -/
abbrev StackSlot := String

/-- The externally supplied canonical rendering of a stack slot
(`stackSlotToString` of `StackHelpers.h`, out of scope: identity here). -/
def stackSlotToString (slot : StackSlot) : String := slot

/-- An ordered operand stack. -/
abbrev Stack := List StackSlot

/-- Modelled from the spec: a call argument expression, reduced to what the
exporter inspects — whether it is a literal (`std::holds_alternative<Literal>`)
and, if so, the literal's value text (`Literal.value.str()`). -/
inductive Expression where
  | lit (value : String)
  | nonLiteral
deriving Repr, DecidableEq

/-- Whether an expression is a literal value. -/
def Expression.isLit : Expression → Bool
  | .lit _ => true
  | .nonLiteral => false

/-- Modelled from the spec: the parts of `CFG::FunctionCall` the exporter
reads — the callee's declared name. -/
structure FunctionCall where
  name : String
deriving Repr, DecidableEq

/-- Modelled from the spec: the parts of `CFG::BuiltinCall` the exporter
reads.  `literalArguments i = true` models `builtin.literalArguments[i]`
holding a value (the position is declared literal-only); `builtinName` is the
internal builtin name (never emitted); `functionName` is the call-site's
written name (`functionCall.functionName.name`); `arguments` are the
call-site arguments (`functionCall.arguments`). -/
structure BuiltinCall where
  builtinName : String
  functionName : String
  literalArguments : List Bool
  arguments : List Expression
deriving Repr, DecidableEq

/-- Modelled from the spec: the parts of `CFG::Assignment` the exporter
reads — the assigned destination slots. -/
structure Assignment where
  vars : List StackSlot
deriving Repr, DecidableEq

/-- The tagged operation variant (`CFG::Operation::operation`). -/
inductive OperationKind where
  | functionCall (call : FunctionCall)
  | builtinCall (call : BuiltinCall)
  | assignment (assign : Assignment)
deriving Repr, DecidableEq

/-- `CFG::Operation`: an input stack, an output stack and the variant. -/
structure Operation where
  input : Stack
  output : Stack
  operation : OperationKind
deriving Repr, DecidableEq

/-- `CFG::BasicBlock`'s exit terminator.  Successor blocks are arena
indices; `conditionalJump` carries the condition slot, `functionReturn`
the returning function's name (`_return.info->function.name`). -/
inductive BlockExit where
  | mainExit
  | jump (target : Nat)
  | conditionalJump (condition : StackSlot) (zero : Nat) (nonZero : Nat)
  | functionReturn (functionName : String)
  | terminated
deriving Repr, DecidableEq

/-- `CFG::BasicBlock`: an ordered operation sequence plus one exit. -/
structure BasicBlock where
  operations : List Operation
  exit : BlockExit
deriving Repr, DecidableEq

instance : Inhabited BasicBlock := ⟨⟨[], .mainExit⟩⟩

/-- Modelled from the spec: the `CFG` root aggregate — a block arena, the
main entry's index, and each function's entry index in function-table
order (`functionInfo | ranges::views::values`). -/
structure CFG where
  blocks : List BasicBlock
  entry : Nat
  functionEntries : List Nat
deriving Repr, DecidableEq

/-- Fetch a block by arena index. -/
def getBlock (cfg : CFG) (v : Nat) : BasicBlock := cfg.blocks.getD v default

/-- The root set seeding the traversal: main entry, then the function
entries in function-table order. -/
def roots (cfg : CFG) : List Nat := cfg.entry :: cfg.functionEntries

/-- The successor indices an exit hands to `_addChild`: `Jump` its target,
`ConditionalJump` the zero branch then the non-zero branch, the three leaf
variants none. -/
def exitSuccessors : BlockExit → List Nat
  | .jump target => [target]
  | .conditionalJump _ z nz => [z, nz]
  | _ => []

/-- Successors of the block at index `v`. -/
def successors (cfg : CFG) (v : Nat) : List Nat := exitSuccessors (getBlock cfg v).exit

/-- A block index reachable from the root set along successor edges. -/
inductive Reachable (cfg : CFG) : Nat → Prop where
  | root {v : Nat} : v ∈ roots cfg → Reachable cfg v
  | step {v w : Nat} : Reachable cfg v → w ∈ successors cfg v → Reachable cfg w

/-- A block index reachable from the root set along a path that never
touches the block `a` (used to state "only reachable through `a`"). -/
inductive ReachableAvoiding (cfg : CFG) (a : Nat) : Nat → Prop where
  | root {v : Nat} : v ∈ roots cfg → v ≠ a → ReachableAvoiding cfg a v
  | step {v w : Nat} : ReachableAvoiding cfg a v → w ∈ successors cfg v → w ≠ a →
      ReachableAvoiding cfg a w

/-- Block `b` is only reachable through `a`: it is reachable, distinct from
`a`, and no path from the root set avoids `a`. -/
def OnlyReachableThrough (cfg : CFG) (a b : Nat) : Prop :=
  Reachable cfg b ∧ b ≠ a ∧ ¬ ReachableAvoiding cfg a b

/-! ## Block-ID assignment (`getBlockId`, lines 158–164)

`m_blockIds` is an association list kept in assignment order together with
the monotone counter `m_blockCount`. -/

/-- The exporter's private ID state: `blockIds` maps a block index to its
ID, listed in assignment order; `blockCount` is the next fresh ID. -/
structure IdMap where
  blockIds : List (Nat × Nat)
  blockCount : Nat
deriving Repr, DecidableEq

/-- `YulControlFlowGraphExporter::getBlockId`: return the memoized ID, or
assign the next counter value on first lookup. -/
def getBlockId (m : IdMap) (v : Nat) : Nat × IdMap :=
  match m.blockIds.lookup v with
  | some id => (id, m)
  | none => (m.blockCount, ⟨m.blockIds ++ [(v, m.blockCount)], m.blockCount + 1⟩)

/-! ## Operation serialization (`toJson(CFG::Operation)`, lines 96–141) -/

/-- The literal-argument loop of the `BuiltinCall` visitor (lines 106–119):
walk the declared positions `i`; a declared position with `i <` the number
of call arguments must hold a literal (`yulAssert`, modelled by `none`)
whose value text is appended; any other position contributes nothing. -/
def builtinArgsLoop : List Bool → List Expression → Option (List Json)
  | [], _ => some []
  | _ :: _, [] => some []
  | declared :: ds, arg :: args =>
    if declared then
      match arg with
      | .lit v => Option.map (fun rest => Json.str v :: rest) (builtinArgsLoop ds args)
      | .nonLiteral => none
    else
      builtinArgsLoop ds args

/-- `stackToJson`: render an ordered stack as an ordered string array. -/
def stackToJson (stack : Stack) : Json :=
  .arr (stack.map (fun slot => .str (stackSlotToString slot)))

/-- `stackSlotToJson`: wrap one slot's canonical string as a one-element
array. -/
def stackSlotToJson (slot : StackSlot) : Json :=
  .arr [.str (stackSlotToString slot)]

/-- `toJson(CFG::Operation)`: the variant-specific fields, then `in` and
`out`.  `none` models the `yulAssert` abort on a declared-literal position
whose in-range argument is not a literal. -/
def operationToJson (op : Operation) : Option Json :=
  let inOut : List (String × Json) :=
    [("in", stackToJson op.input), ("out", stackToJson op.output)]
  match op.operation with
  | .functionCall call => some (.obj ([("op", .str call.name)] ++ inOut))
  | .builtinCall call =>
    match builtinArgsLoop call.literalArguments call.arguments with
    | none => none
    | some builtinArgs =>
      let prefixFields : List (String × Json) :=
        if builtinArgs.isEmpty then [] else [("builtinArgs", .arr builtinArgs)]
      some (.obj (prefixFields ++ [("op", .str call.functionName)] ++ inOut))
  | .assignment assign =>
    some (.obj ([("assignment",
      .arr (assign.vars.map (fun v => .str (stackSlotToString v))))] ++ inOut))

/-! ## Block and exit serialization (lines 39–94) -/

/-- The reference string `"Block<id>"`. -/
def blockRef (idv : Nat) : Json := .str ("Block" ++ toString idv)

/-- The block record of lines 83–94: exactly the fields `id`,
`instructions`, `exit` (the block's own exit-node reference), `type`. -/
def blockRecordJson (idv : Nat) (instrs : List Json) : Json :=
  .obj [("id", .str ("Block" ++ toString idv)),
        ("instructions", .arr instrs),
        ("exit", .str ("Block" ++ toString idv ++ "Exit")),
        ("type", .str "BasicBlock")]

/-- An exit record of lines 43–78: `id`, `instructions`, `exit`, an
optional `cond` (only `ConditionalJump` has one), `type`. -/
def exitRecordJson (idv : Nat) (instrs : List Json) (exits : List Json)
    (cond : Option Json) (ty : String) : Json :=
  .obj ([("id", .str ("Block" ++ toString idv ++ "Exit")),
         ("instructions", .arr instrs),
         ("exit", .arr exits)]
    ++ (match cond with | some cj => [("cond", cj)] | none => [])
    ++ [("type", .str ty)])

/-- `toJson(CFG::BasicBlock)` (lines 83–94): `id`, `instructions`, `exit`
(its own exit node's reference), `type`.  Threads the ID map because the
first `getBlockId` call may assign the block's ID (on an operation
serialization failure the export aborts and the table is discarded). -/
def basicBlockToJson (cfg : CFG) (m : IdMap) (v : Nat) : Option (Json × IdMap) :=
  match (getBlock cfg v).operations.mapM operationToJson with
  | none => none
  | some instrs =>
    some (blockRecordJson (getBlockId m v).1 instrs, (getBlockId m v).2)

/-- The exit record of the block at `v` (lines 43–78), threading the ID map:
`id`, `instructions` (the returning function's name for `FunctionReturn`,
else empty), `exit` (successor references; the block itself for the leaf
variants), `cond` (only for `ConditionalJump`), `type`.  `getBlockId` runs
on the block itself first, then on the successors in the order the exit
record names them. -/
def exitBlockToJson (cfg : CFG) (m : IdMap) (v : Nat) : Json × IdMap :=
  let (idv, m₁) := getBlockId m v
  match (getBlock cfg v).exit with
  | .mainExit =>
    (exitRecordJson idv [] [blockRef idv] none "MainExit", m₁)
  | .jump target =>
    let (idt, m₂) := getBlockId m₁ target
    (exitRecordJson idv [] [blockRef idt] none "Jump", m₂)
  | .conditionalJump condition z nz =>
    let (idz, m₂) := getBlockId m₁ z
    let (idnz, m₃) := getBlockId m₂ nz
    (exitRecordJson idv [] [blockRef idz, blockRef idnz]
      (some (stackSlotToJson condition)) "ConditionalJump", m₃)
  | .functionReturn functionName =>
    (exitRecordJson idv [.str functionName] [blockRef idv] none "FunctionReturn", m₁)
  | .terminated =>
    (exitRecordJson idv [] [blockRef idv] none "Terminated", m₁)

/-- Serialize one visit of block `v`: the block record then the exit
record, in the source's `getBlockId` call order (the block itself first,
then the successors named by the exit record). -/
def serializeVisit (cfg : CFG) (m : IdMap) (v : Nat) : Option (Json × Json × IdMap) :=
  match basicBlockToJson cfg m v with
  | none => none
  | some (blockJson, m₁) =>
    let (exitJson, m₂) := exitBlockToJson cfg m₁ v
    some (blockJson, exitJson, m₂)

/-! ## The breadth-first traversal (`operator()`, lines 32–81)

Modelled from the spec: `util::BreadthFirstSearch` (outside the sampled
source) keeps a worklist and a visited set; it pops the front, skips
already-visited vertices, marks the vertex visited, runs the body, and
`_addChild` appends a vertex to the back of the worklist unless it is
already visited.  Re-encountering a visited or queued block therefore
never re-emits it and the walk tolerates cycles. -/

/-- The traversal state: the worklist, the visited set, the ID state, and
the output sequence built so far.  `visits` is specification-only ghost
state recording the visit order (the blocks whose records were emitted,
in emission order); it influences nothing. -/
structure TraversalState where
  queue : List Nat
  visited : Finset Nat
  idMap : IdMap
  output : List Json
  visits : List Nat

/-- The result of a traversal: the final state on success, `fail` when a
`yulAssert` aborted the export, `outOfFuel` when the step budget ran out
(shown below never to happen at the budget `exportFuel`). -/
inductive TraversalResult where
  | ok (s : TraversalState)
  | fail
  | outOfFuel

/-- Visit the block `v` (already marked visited, already removed from the
queue): emit its block record and exit record and enqueue its unvisited
successors at the back of the worklist. -/
def visitStep (cfg : CFG) (s : TraversalState) (v : Nat) : Option TraversalState :=
  match serializeVisit cfg s.idMap v with
  | none => none
  | some (blockJson, exitJson, m') =>
    some { s with
      queue := s.queue ++ (successors cfg v).filter (fun w => w ∉ s.visited),
      idMap := m',
      output := s.output ++ [blockJson, exitJson],
      visits := s.visits ++ [v] }

/-- The worklist loop of `BreadthFirstSearch::run`, fuelled. -/
def traverse (cfg : CFG) : Nat → TraversalState → TraversalResult
  | 0, _ => .outOfFuel
  | fuel + 1, s =>
    match s.queue with
    | [] => .ok s
    | v :: rest =>
      if v ∈ s.visited then
        traverse cfg fuel { s with queue := rest }
      else
        match visitStep cfg { s with queue := rest, visited := insert v s.visited } v with
        | none => .fail
        | some s' => traverse cfg fuel s'

/-- Every block index the traversal can ever enqueue: the root set plus
every successor of every arena block (an out-of-range index has no
successors). -/
def mentionable (cfg : CFG) : Finset Nat :=
  (roots cfg ++ (List.range cfg.blocks.length).flatMap (successors cfg)).toFinset

/-- A step budget sufficient for any input (proved below): every loop
iteration pops one worklist entry, and at most `2 ·  |mentionable|` entries
are ever pushed beyond the initial root set. -/
def exportFuel (cfg : CFG) : Nat :=
  (roots cfg).length + 2 * (mentionable cfg).card + 1

/-- The initial traversal state: the worklist holds the main entry then
the function entries; nothing is visited, no IDs are assigned. -/
def initialState (cfg : CFG) : TraversalState :=
  ⟨roots cfg, ∅, ⟨[], 0⟩, [], []⟩

/-- `YulControlFlowGraphExporter::operator()`: run the traversal from the
root set. -/
def exportCFG (cfg : CFG) : TraversalResult :=
  traverse cfg (exportFuel cfg) (initialState cfg)

/-- The exported JSON array, `none` when the export aborts. -/
def exportJson (cfg : CFG) : Option (List Json) :=
  match exportCFG cfg with
  | .ok s => some s.output
  | _ => none

/-- The visit order of a successful export (empty otherwise). -/
def visitsOf (cfg : CFG) : List Nat :=
  match exportCFG cfg with
  | .ok s => s.visits
  | _ => []

/-- The final block-ID table of a successful export (empty otherwise). -/
def idsOf (cfg : CFG) : List (Nat × Nat) :=
  match exportCFG cfg with
  | .ok s => s.idMap.blockIds
  | _ => []

/-- The ID a successful export assigned to block `v`. -/
def idOf (cfg : CFG) (v : Nat) : Option Nat :=
  (idsOf cfg).lookup v

/-- The first position of `v` in a list (specification helper). -/
def firstIndex : List Nat → Nat → Option Nat
  | [], _ => none
  | x :: xs, v => if x = v then some 0 else (firstIndex xs v).map (· + 1)

/-- The position of `v` in the visit order (specification helper). -/
def visitIndexOf (cfg : CFG) (v : Nat) : Option Nat :=
  firstIndex (visitsOf cfg) v

/-- The exit record emitted for block `v`: the element following `v`'s
block record in the output array (specification helper for stating the
exit-record claims). -/
def exitRecordOf (cfg : CFG) (v : Nat) : Option Json :=
  match visitIndexOf cfg v, exportJson cfg with
  | some k, some out => out.get? (2 * k + 1)
  | _, _ => none

/-- The block record emitted for block `v` (specification helper). -/
def blockRecordOf (cfg : CFG) (v : Nat) : Option Json :=
  match visitIndexOf cfg v, exportJson cfg with
  | some k, some out => out.get? (2 * k)
  | _, _ => none

/-! ## The failure condition

The only `yulAssert` of the exporter (line 115): a builtin call declaring
an argument position literal-only whose in-range call argument is not a
literal value. -/

/-- A builtin call violating the declared-literal invariant. -/
def BadBuiltin (c : BuiltinCall) : Prop :=
  ∃ i, i < c.literalArguments.length ∧ c.literalArguments.getD i false = true ∧
    i < c.arguments.length ∧ (c.arguments.getD i .nonLiteral).isLit = false

/-- An operation whose serialization trips the assertion. -/
def BadOperation (op : Operation) : Prop :=
  ∃ c, op.operation = .builtinCall c ∧ BadBuiltin c

instance (c : BuiltinCall) : Decidable (BadBuiltin c) := by
  unfold BadBuiltin
  exact decidable_of_iff
    (∃ i < c.literalArguments.length, c.literalArguments.getD i false = true ∧
      i < c.arguments.length ∧ (c.arguments.getD i .nonLiteral).isLit = false)
    (by constructor
        · rintro ⟨i, h₁, h₂⟩; exact ⟨i, h₁, h₂⟩
        · rintro ⟨i, h₁, h₂⟩; exact ⟨i, h₁, h₂⟩)

/-- The literal texts the claim describes: for each argument position
declared literal-only that also exists in the argument list, the literal's
text, in declared-position order (stated from the claim's words, to be
compared with the source's `builtinArgsLoop`). -/
def declaredTexts (la : List Bool) (args : List Expression) : List Json :=
  ((List.range la.length).filter
    (fun i => la.getD i false && decide (i < args.length))).map
    (fun i => Json.str (match args.getD i .nonLiteral with
      | .lit v => v
      | .nonLiteral => ""))

/-- `declaredTexts` for a builtin call. -/
def declaredLiteralTexts (c : BuiltinCall) : List Json :=
  declaredTexts c.literalArguments c.arguments

/-! ## Lemmas on the literal-argument loop -/

theorem builtinArgsLoop_eq_none_iff (la : List Bool) (args : List Expression) :
    builtinArgsLoop la args = none ↔
      ∃ i, i < la.length ∧ la.getD i false = true ∧ i < args.length ∧
        (args.getD i .nonLiteral).isLit = false := by
  induction la generalizing args with
  | nil => simp [builtinArgsLoop]
  | cons d ds ih =>
    cases args with
    | nil => simp [builtinArgsLoop]
    | cons a as =>
      cases d with
      | false =>
        rw [show builtinArgsLoop (false :: ds) (a :: as) = builtinArgsLoop ds as from rfl,
          ih as]
        constructor
        · rintro ⟨i, h₁, h₂, h₃, h₄⟩
          exact ⟨i + 1, by simpa using h₁, by simpa using h₂, by simpa using h₃,
            by simpa using h₄⟩
        · rintro ⟨i, h₁, h₂, h₃, h₄⟩
          cases i with
          | zero => simp at h₂
          | succ j =>
            exact ⟨j, by simpa using h₁, by simpa using h₂, by simpa using h₃,
              by simpa using h₄⟩
      | true =>
        cases a with
        | lit v =>
          rw [show builtinArgsLoop (true :: ds) (.lit v :: as)
              = Option.map (fun rest => Json.str v :: rest) (builtinArgsLoop ds as) from rfl]
          rw [Option.map_eq_none', ih as]
          constructor
          · rintro ⟨i, h₁, h₂, h₃, h₄⟩
            exact ⟨i + 1, by simpa using h₁, by simpa using h₂, by simpa using h₃,
              by simpa using h₄⟩
          · rintro ⟨i, h₁, h₂, h₃, h₄⟩
            cases i with
            | zero => simp [Expression.isLit] at h₄
            | succ j =>
              exact ⟨j, by simpa using h₁, by simpa using h₂, by simpa using h₃,
                by simpa using h₄⟩
        | nonLiteral =>
          constructor
          · intro _
            exact ⟨0, by simp, by simp, by simp, by simp [Expression.isLit]⟩
          · intro _
            rfl

theorem builtinArgsLoop_eq_some (la : List Bool) (args : List Expression)
    (l : List Json) (h : builtinArgsLoop la args = some l) :
    l = declaredTexts la args := by
  induction la generalizing args l with
  | nil =>
    simp [builtinArgsLoop] at h
    simp [declaredTexts, ← h]
  | cons d ds ih =>
    cases args with
    | nil =>
      simp [builtinArgsLoop] at h
      simp [declaredTexts, ← h]
    | cons a as =>
      have hshift : declaredTexts (d :: ds) (a :: as)
          = (if d then [Json.str (match a with | .lit v => v | .nonLiteral => "")]
             else []) ++ declaredTexts ds as := by
        have hp : ((fun i => (d :: ds).getD i false && decide (i < as.length + 1))
            ∘ Nat.succ) = fun i => ds.getD i false && decide (i < as.length) := by
          funext i
          simp [Function.comp, Nat.succ_lt_succ_iff]
        have hm : ((fun i => Json.str (match (a :: as).getD i .nonLiteral with
              | .lit v => v | .nonLiteral => "")) ∘ Nat.succ)
            = fun i => Json.str (match as.getD i .nonLiteral with
              | .lit v => v | .nonLiteral => "") := by
          funext i
          simp [Function.comp]
        simp only [declaredTexts, List.length_cons, List.range_succ_eq_map,
          List.filter_cons, List.filter_map]
        rw [hp]
        cases d with
        | true =>
          simp only [List.getD_cons_zero, Nat.zero_lt_succ, decide_True, Bool.true_and,
            if_true, List.map_cons, List.map_map, List.getD_cons_zero]
          rw [hm]
          simp
          cases a <;> rfl
        | false =>
          simp only [List.getD_cons_zero, Bool.false_and, if_false, List.map_map,
            Bool.false_eq_true]
          rw [hm]
          simp
      cases d with
      | false =>
        rw [show builtinArgsLoop (false :: ds) (a :: as) = builtinArgsLoop ds as from rfl] at h
        rw [hshift]
        simpa using ih as l h
      | true =>
        cases a with
        | lit v =>
          rw [show builtinArgsLoop (true :: ds) (.lit v :: as)
              = Option.map (fun rest => Json.str v :: rest) (builtinArgsLoop ds as) from rfl] at h
          rw [Option.map_eq_some'] at h
          obtain ⟨rest, hrest, hl⟩ := h
          rw [hshift]
          simp only [if_true]
          rw [← hl, ih as rest hrest]
          rfl
        | nonLiteral =>
          exact absurd h (by simp [builtinArgsLoop])

theorem builtinArgsLoop_take (la : List Bool) (args : List Expression) :
    builtinArgsLoop (la.take args.length) args = builtinArgsLoop la args := by
  induction la generalizing args with
  | nil => simp
  | cons d ds ih =>
    cases args with
    | nil => rfl
    | cons a as =>
      rw [List.length_cons, List.take_succ_cons]
      cases d with
      | false =>
        rw [show builtinArgsLoop (false :: ds.take as.length) (a :: as)
            = builtinArgsLoop (ds.take as.length) as from rfl,
          show builtinArgsLoop (false :: ds) (a :: as) = builtinArgsLoop ds as from rfl]
        exact ih as
      | true =>
        cases a with
        | lit v =>
          rw [show builtinArgsLoop (true :: ds.take as.length) (.lit v :: as)
              = Option.map (fun rest => Json.str v :: rest)
                  (builtinArgsLoop (ds.take as.length) as) from rfl,
            show builtinArgsLoop (true :: ds) (.lit v :: as)
              = Option.map (fun rest => Json.str v :: rest) (builtinArgsLoop ds as) from rfl,
            ih as]
        | nonLiteral => rfl

theorem builtinArgsLoop_all_out_of_range (la : List Bool) (args : List Expression)
    (h : ∀ i, i < la.length → la.getD i false = true → args.length ≤ i) :
    builtinArgsLoop la args = some [] := by
  induction la generalizing args with
  | nil => rfl
  | cons d ds ih =>
    cases args with
    | nil => rfl
    | cons a as =>
      have hd : d = false := by
        cases d with
        | false => rfl
        | true =>
          have h0 := h 0 (Nat.zero_lt_succ _) (by simp)
          simp at h0
      subst hd
      rw [show builtinArgsLoop (false :: ds) (a :: as) = builtinArgsLoop ds as from rfl]
      exact ih as (fun i hi hdi => by
        have := h (i + 1) (by simpa using hi) (by simpa using hdi)
        simpa using this)

theorem operationToJson_eq_none_iff (op : Operation) :
    operationToJson op = none ↔ BadOperation op := by
  cases hop : op.operation with
  | functionCall call =>
    simp only [operationToJson, hop]
    simp [BadOperation, hop]
  | builtinCall call =>
    simp only [operationToJson, hop]
    constructor
    · intro h
      cases hloop : builtinArgsLoop call.literalArguments call.arguments with
      | none =>
        exact ⟨call, hop, (builtinArgsLoop_eq_none_iff _ _).mp hloop⟩
      | some l => rw [hloop] at h; simp at h
    · rintro ⟨c, hc, hbad⟩
      rw [hop] at hc
      cases hc
      rw [(builtinArgsLoop_eq_none_iff _ _).mpr hbad]
  | assignment assign =>
    simp only [operationToJson, hop]
    simp [BadOperation, hop]

/-! ## Claims about operation serialization -/

/-- C7: for every Assignment operation, the record contains `assignment` —
the ordered list of canonical strings of the assigned destination slots —
plus always-present `in` and `out` fields holding the canonical-string
lists of the input and output stacks, and contains no `op` key. -/
theorem assignment_record_fields (inp outp : Stack) (a : Assignment) :
    ∃ j, operationToJson ⟨inp, outp, .assignment a⟩ = some j ∧
      j.getField "assignment"
        = some (.arr (a.vars.map (fun v => .str (stackSlotToString v)))) ∧
      j.getField "in" = some (stackToJson inp) ∧
      j.getField "out" = some (stackToJson outp) ∧
      j.getField "op" = none := by
  exact ⟨_, rfl, rfl, rfl, rfl, rfl⟩

/-- C6: for every BuiltinCall operation record, `op` is the call-site's
written function name (not the internal builtin name); `builtinArgs` holds
the literal texts of the declared-literal positions that exist in the
argument list, in declared order, and is omitted exactly when no such
entry exists; `in` and `out` are always present. -/
theorem builtin_call_record_fields (inp outp : Stack) (c : BuiltinCall) (j : Json)
    (h : operationToJson ⟨inp, outp, .builtinCall c⟩ = some j) :
    j.getField "op" = some (.str c.functionName) ∧
    (declaredLiteralTexts c = [] → j.getField "builtinArgs" = none) ∧
    (declaredLiteralTexts c ≠ [] →
      j.getField "builtinArgs" = some (.arr (declaredLiteralTexts c))) ∧
    j.getField "in" = some (stackToJson inp) ∧
    j.getField "out" = some (stackToJson outp) := by
  simp only [operationToJson] at h
  cases hloop : builtinArgsLoop c.literalArguments c.arguments with
  | none =>
    rw [hloop] at h
    simp at h
  | some bargs =>
    rw [hloop] at h
    simp only [Option.some.injEq] at h
    have htexts : bargs = declaredLiteralTexts c :=
      builtinArgsLoop_eq_some _ _ _ hloop
    subst h
    cases hb : bargs with
    | nil =>
      rw [hb] at htexts
      refine ⟨by rfl, fun _ => by rfl, fun hne => absurd htexts.symm hne, by rfl, by rfl⟩
    | cons x xs =>
      have hne : ¬ bargs.isEmpty := by rw [hb]; simp
      rw [if_neg (by simpa using hne)]
      refine ⟨by rfl, ?_, ?_, by rfl, by rfl⟩
      · intro hnil
        rw [← htexts, hb] at hnil
        simp at hnil
      · intro _
        rw [← htexts, hb]
        rfl

/-- Witness for C6 at a concrete builtin call: declared-literal position 0
holding literal `5`, non-declared position 1. -/
theorem builtin_call_record_fields_witness :
    (Json.obj [("builtinArgs", .arr [.str "5"]), ("op", .str "written"),
        ("in", .arr [.str "a"]), ("out", .arr [])]).getField "op"
      = some (.str "written") ∧
    (declaredLiteralTexts ⟨"intern", "written", [true, false], [.lit "5", .nonLiteral]⟩ = [] →
      (Json.obj [("builtinArgs", .arr [.str "5"]), ("op", .str "written"),
        ("in", .arr [.str "a"]), ("out", .arr [])]).getField "builtinArgs" = none) ∧
    (declaredLiteralTexts ⟨"intern", "written", [true, false], [.lit "5", .nonLiteral]⟩ ≠ [] →
      (Json.obj [("builtinArgs", .arr [.str "5"]), ("op", .str "written"),
        ("in", .arr [.str "a"]), ("out", .arr [])]).getField "builtinArgs"
        = some (.arr (declaredLiteralTexts
            ⟨"intern", "written", [true, false], [.lit "5", .nonLiteral]⟩))) ∧
    (Json.obj [("builtinArgs", .arr [.str "5"]), ("op", .str "written"),
        ("in", .arr [.str "a"]), ("out", .arr [])]).getField "in"
      = some (stackToJson ["a"]) ∧
    (Json.obj [("builtinArgs", .arr [.str "5"]), ("op", .str "written"),
        ("in", .arr [.str "a"]), ("out", .arr [])]).getField "out"
      = some (stackToJson []) :=
  builtin_call_record_fields ["a"] []
    ⟨"intern", "written", [true, false], [.lit "5", .nonLiteral]⟩ _ rfl

/-- C10: a declared literal-only position at an index beyond the call's
argument list is silently skipped — truncating the declaration list to the
argument count never changes the record — and when every declared position
lies beyond the argument list the serialization succeeds with no
`builtinArgs` key at all. -/
theorem builtin_out_of_range_literals (inp outp : Stack) (c : BuiltinCall) :
    operationToJson ⟨inp, outp, .builtinCall c⟩
      = operationToJson ⟨inp, outp, .builtinCall
          { c with literalArguments := c.literalArguments.take c.arguments.length }⟩ ∧
    ((∀ i, i < c.literalArguments.length → c.literalArguments.getD i false = true →
        c.arguments.length ≤ i) →
      operationToJson ⟨inp, outp, .builtinCall c⟩
        = some (.obj [("op", .str c.functionName), ("in", stackToJson inp),
            ("out", stackToJson outp)])) := by
  constructor
  · simp only [operationToJson]
    rw [builtinArgsLoop_take]
  · intro h
    simp only [operationToJson]
    rw [builtinArgsLoop_all_out_of_range c.literalArguments c.arguments h]
    rfl

/-- Witness for C10: one declared-literal position, empty argument list —
the export record succeeds and omits `builtinArgs`. -/
theorem builtin_out_of_range_literals_witness :
    operationToJson ⟨[], [], .builtinCall ⟨"b", "w", [true], []⟩⟩
      = some (.obj [("op", .str "w"), ("in", stackToJson []), ("out", stackToJson [])]) :=
  (builtin_out_of_range_literals [] [] ⟨"b", "w", [true], []⟩).2
    (fun i _ _ => Nat.zero_le i)

/-! ## Association-list and `getBlockId` lemmas -/

/-- The block indices that have been assigned an ID, in assignment order. -/
def IdMap.keys (m : IdMap) : List Nat := m.blockIds.map Prod.fst

theorem lookup_append_some {l l' : List (Nat × Nat)} {k i : Nat}
    (h : l.lookup k = some i) : (l ++ l').lookup k = some i := by
  induction l with
  | nil => simp [List.lookup] at h
  | cons p t ih =>
    obtain ⟨a, b⟩ := p
    by_cases hak : k = a
    · subst hak
      simp [List.lookup_cons] at h ⊢
      exact h
    · simp [List.lookup_cons, beq_false_of_ne hak] at h ⊢
      exact ih h

theorem lookup_append_none {l l' : List (Nat × Nat)} {k : Nat}
    (h : l.lookup k = none) : (l ++ l').lookup k = l'.lookup k := by
  induction l with
  | nil => rfl
  | cons p t ih =>
    obtain ⟨a, b⟩ := p
    by_cases hak : k = a
    · subst hak
      rw [List.lookup_cons] at h
      simp only [beq_self_eq_true] at h
      cases h
    · rw [List.lookup_cons] at h
      rw [List.cons_append, List.lookup_cons]
      rw [beq_false_of_ne hak] at h ⊢
      exact ih h

theorem lookup_eq_none_iff {l : List (Nat × Nat)} {k : Nat} :
    l.lookup k = none ↔ k ∉ l.map Prod.fst := by
  induction l with
  | nil => simp [List.lookup]
  | cons p t ih =>
    obtain ⟨a, b⟩ := p
    by_cases hak : k = a
    · subst hak
      simp [List.lookup_cons]
    · simp [List.lookup_cons, beq_false_of_ne hak, ih, hak]

theorem lookup_mem {l : List (Nat × Nat)} {k i : Nat}
    (h : l.lookup k = some i) : (k, i) ∈ l := by
  induction l with
  | nil => simp [List.lookup] at h
  | cons p t ih =>
    obtain ⟨a, b⟩ := p
    by_cases hak : k = a
    · subst hak
      simp [List.lookup_cons] at h
      simp [h]
    · simp [List.lookup_cons, beq_false_of_ne hak] at h
      exact List.mem_cons_of_mem _ (ih h)

theorem lookup_isSome_of_mem_keys {l : List (Nat × Nat)} {k : Nat}
    (h : k ∈ l.map Prod.fst) : ∃ i, l.lookup k = some i := by
  cases hl : l.lookup k with
  | none => exact absurd (lookup_eq_none_iff.mp hl) (by simpa using h)
  | some i => exact ⟨i, rfl⟩

/-- `getBlockId` on an already-assigned block returns the table unchanged. -/
theorem getBlockId_assigned {m : IdMap} {v i : Nat}
    (h : m.blockIds.lookup v = some i) : getBlockId m v = (i, m) := by
  simp [getBlockId, h]

/-- `getBlockId` on a fresh block appends one entry and bumps the counter. -/
theorem getBlockId_fresh {m : IdMap} {v : Nat}
    (h : m.blockIds.lookup v = none) :
    getBlockId m v = (m.blockCount, ⟨m.blockIds ++ [(v, m.blockCount)], m.blockCount + 1⟩) := by
  simp [getBlockId, h]

/-- After any `getBlockId` call the table extends the old one, the queried
block is assigned, and its returned ID is its table entry. -/
theorem getBlockId_spec (m : IdMap) (v : Nat) :
    (∃ Δ, (getBlockId m v).2.blockIds = m.blockIds ++ Δ) ∧
    (getBlockId m v).2.blockIds.lookup v = some (getBlockId m v).1 := by
  cases hl : m.blockIds.lookup v with
  | some i =>
    rw [getBlockId_assigned hl]
    exact ⟨⟨[], by simp⟩, hl⟩
  | none =>
    rw [getBlockId_fresh hl]
    refine ⟨⟨[(v, m.blockCount)], rfl⟩, ?_⟩
    rw [lookup_append_none hl]
    simp [List.lookup_cons]

/-! ## The ID-table invariant -/

/-- Invariant of the block-ID table: the counter equals the table size;
IDs are `0, 1, 2, …` in assignment order; each block is assigned at most
once; every assigned block is reachable; every block assigned earlier is
reachable avoiding every block assigned later; and while a block is
unassigned, everything assigned is reachable avoiding it. -/
structure IdInv (cfg : CFG) (m : IdMap) : Prop where
  count_eq : m.blockCount = m.blockIds.length
  ids_snd : m.blockIds.map Prod.snd = List.range m.blockIds.length
  keys_nodup : m.keys.Nodup
  keys_reach : ∀ p ∈ m.blockIds, Reachable cfg p.1
  pairwise : m.blockIds.Pairwise (fun p q => ReachableAvoiding cfg q.1 p.1)
  unassigned : ∀ a, a ∉ m.keys → ∀ b ∈ m.keys, ReachableAvoiding cfg a b

/-- The empty table satisfies the invariant. -/
theorem idInv_initial (cfg : CFG) : IdInv cfg ⟨[], 0⟩ := by
  refine ⟨rfl, rfl, ?_, ?_, ?_, ?_⟩ <;> simp [IdMap.keys]

/-- One `getBlockId` call preserves the invariant, only appends to the
table, leaves the queried block assigned, and adds no key other than the
queried block. -/
theorem getBlockId_preserves (cfg : CFG) (m : IdMap) (k : Nat)
    (hInv : IdInv cfg m) (hreach : Reachable cfg k)
    (hRA : ∀ a, a ∉ m.keys → a ≠ k → ReachableAvoiding cfg a k) :
    IdInv cfg (getBlockId m k).2 ∧
    (∃ Δ, (getBlockId m k).2.blockIds = m.blockIds ++ Δ) ∧
    k ∈ (getBlockId m k).2.keys ∧
    ((getBlockId m k).2.keys = m.keys ∨ (getBlockId m k).2.keys = m.keys ++ [k]) := by
  cases hl : m.blockIds.lookup k with
  | some i =>
    rw [getBlockId_assigned hl]
    have hk : k ∈ m.keys := by
      by_contra hk
      rw [lookup_eq_none_iff.mpr hk] at hl
      cases hl
    exact ⟨hInv, ⟨[], by simp⟩, hk, Or.inl rfl⟩
  | none =>
    rw [getBlockId_fresh hl]
    have hknot : k ∉ m.keys := lookup_eq_none_iff.mp hl
    have hkeys : (IdMap.mk (m.blockIds ++ [(k, m.blockCount)]) (m.blockCount + 1)).keys
        = m.keys ++ [k] := by
      simp [IdMap.keys]
    refine ⟨⟨?_, ?_, ?_, ?_, ?_, ?_⟩, ⟨[(k, m.blockCount)], rfl⟩, ?_, Or.inr hkeys⟩
    · simp [hInv.count_eq]
    · simp only [List.map_append, List.length_append, List.map_cons, List.map_nil,
        List.length_cons, List.length_nil]
      rw [hInv.ids_snd, hInv.count_eq]
      rw [List.range_succ]
    · rw [show (IdMap.mk (m.blockIds ++ [(k, m.blockCount)]) (m.blockCount + 1)).keys
          = m.keys ++ [k] from hkeys]
      simp [List.nodup_append, hInv.keys_nodup, hknot]
    · intro p hp
      rcases List.mem_append.mp hp with hp | hp
      · exact hInv.keys_reach p hp
      · simp at hp
        rw [hp]
        exact hreach
    · rw [List.pairwise_append]
      refine ⟨hInv.pairwise, by simp, ?_⟩
      intro p hp q hq
      simp at hq
      rw [hq]
      exact hInv.unassigned k hknot p.1 (List.mem_map_of_mem Prod.fst hp)
    · intro a ha b hb
      rw [hkeys] at ha hb
      have ha' : a ∉ m.keys ∧ a ≠ k := by
        constructor
        · intro h; exact ha (List.mem_append.mpr (Or.inl h))
        · intro h; exact ha (List.mem_append.mpr (Or.inr (by simp [h])))
      rcases List.mem_append.mp hb with hb | hb
      · exact hInv.unassigned a ha'.1 b hb
      · simp at hb
        rw [hb]
        exact hRA a ha'.1 ha'.2
    · rw [hkeys]
      simp

/-! ## Shape of one visit's records -/

/-- The shape of the exit record emitted for block `v` with block ID
`idv`, relative to an ID table `m` (used for the tables at and after the
moment of serialization — the table only grows, so successor lookups
persist). -/
def ExitShape (cfg : CFG) (m : IdMap) (v idv : Nat) (ej : Json) : Prop :=
  match (getBlock cfg v).exit with
  | .mainExit => ej = exitRecordJson idv [] [blockRef idv] none "MainExit"
  | .jump t => ∃ idt, m.blockIds.lookup t = some idt ∧
      ej = exitRecordJson idv [] [blockRef idt] none "Jump"
  | .conditionalJump c z nz => ∃ idz idnz,
      m.blockIds.lookup z = some idz ∧ m.blockIds.lookup nz = some idnz ∧
      ej = exitRecordJson idv [] [blockRef idz, blockRef idnz]
        (some (stackSlotToJson c)) "ConditionalJump"
  | .functionReturn f => ej = exitRecordJson idv [.str f] [blockRef idv] none "FunctionReturn"
  | .terminated => ej = exitRecordJson idv [] [blockRef idv] none "Terminated"

theorem ExitShape.mono {cfg : CFG} {m m' : IdMap} {v idv : Nat} {ej : Json}
    (h : ExitShape cfg m v idv ej) (hext : ∃ Δ, m'.blockIds = m.blockIds ++ Δ) :
    ExitShape cfg m' v idv ej := by
  obtain ⟨Δ, hΔ⟩ := hext
  unfold ExitShape at h ⊢
  cases hexit : (getBlock cfg v).exit with
  | mainExit => rw [hexit] at h; exact h
  | jump t =>
    rw [hexit] at h
    obtain ⟨idt, hidt, hej⟩ := h
    exact ⟨idt, by rw [hΔ]; exact lookup_append_some hidt, hej⟩
  | conditionalJump c z nz =>
    rw [hexit] at h
    obtain ⟨idz, idnz, hidz, hidnz, hej⟩ := h
    exact ⟨idz, idnz, by rw [hΔ]; exact lookup_append_some hidz,
      by rw [hΔ]; exact lookup_append_some hidnz, hej⟩
  | functionReturn f => rw [hexit] at h; exact h
  | terminated => rw [hexit] at h; exact h

theorem mapM_option_eq_none {α β : Type} {f : α → Option β} {l : List α}
    (h : l.mapM f = none) : ∃ a ∈ l, f a = none := by
  induction l with
  | nil =>
    rw [show List.mapM f ([] : List α) = some [] from rfl] at h
    cases h
  | cons x xs ih =>
    rw [List.mapM_cons] at h
    cases hx : f x with
    | none => exact ⟨x, by simp, hx⟩
    | some b =>
      rw [hx] at h
      cases hxs : xs.mapM f with
      | none =>
        obtain ⟨a, ha, hfa⟩ := ih hxs
        exact ⟨a, by simp [ha], hfa⟩
      | some bs =>
        rw [hxs] at h
        simp at h

/-- A failing visit pinpoints a bad operation in the visited block. -/
theorem serializeVisit_none {cfg : CFG} {m : IdMap} {v : Nat}
    (h : serializeVisit cfg m v = none) :
    ∃ op ∈ (getBlock cfg v).operations, BadOperation op := by
  unfold serializeVisit basicBlockToJson at h
  cases hmapM : (getBlock cfg v).operations.mapM operationToJson with
  | some instrs => rw [hmapM] at h; simp at h
  | none =>
    rcases mapM_option_eq_none hmapM with ⟨op, hop, hnone⟩
    exact ⟨op, hop, (operationToJson_eq_none_iff op).mp hnone⟩

/-- A successful visit: the table keeps its invariant and only grows, the
visited block is assigned, the records have the declared shapes, and every
successor ends up assigned. -/
theorem serializeVisit_some {cfg : CFG} {m : IdMap} {v : Nat}
    (hInv : IdInv cfg m) (hreach : Reachable cfg v) (hv : v ∈ m.keys ∨ v ∈ roots cfg)
    {bj ej : Json} {m' : IdMap} (h : serializeVisit cfg m v = some (bj, ej, m')) :
    IdInv cfg m' ∧ (∃ Δ, m'.blockIds = m.blockIds ++ Δ) ∧
    (∃ idv instrs, m'.blockIds.lookup v = some idv ∧
      (getBlock cfg v).operations.mapM operationToJson = some instrs ∧
      bj = blockRecordJson idv instrs ∧ ExitShape cfg m' v idv ej) ∧
    (∀ w ∈ successors cfg v, w ∈ m'.keys) := by
  have hRAv : ∀ a, a ∉ m.keys → a ≠ v → ReachableAvoiding cfg a v := by
    intro a ha hav
    rcases hv with hv | hv
    · exact hInv.unassigned a ha v hv
    · exact ReachableAvoiding.root hv (Ne.symm hav)
  obtain ⟨hInv₁, hext₁, hvkeys₁, -⟩ := getBlockId_preserves cfg m v hInv hreach hRAv
  have hvlook₁ : (getBlockId m v).2.blockIds.lookup v = some (getBlockId m v).1 :=
    (getBlockId_spec m v).2
  unfold serializeVisit basicBlockToJson at h
  cases hmapM : (getBlock cfg v).operations.mapM operationToJson with
  | none => rw [hmapM] at h; cases h
  | some instrs =>
    rw [hmapM] at h
    simp only at h
    unfold exitBlockToJson at h
    rw [getBlockId_assigned hvlook₁] at h
    cases hexit : (getBlock cfg v).exit with
    | mainExit =>
      rw [hexit] at h
      simp only [Option.some.injEq, Prod.mk.injEq] at h
      obtain ⟨hbj, hej, hm'⟩ := h
      subst hm'
      refine ⟨hInv₁, hext₁, ⟨(getBlockId m v).1, instrs, hvlook₁, rfl, hbj.symm, ?_⟩, ?_⟩
      · unfold ExitShape
        rw [hexit]
        exact hej.symm
      · intro w hw
        simp [successors, hexit, exitSuccessors] at hw
    | jump t =>
      rw [hexit] at h
      have htsucc : t ∈ successors cfg v := by simp [successors, hexit, exitSuccessors]
      have htreach : Reachable cfg t := Reachable.step hreach htsucc
      have hRAt : ∀ a, a ∉ (getBlockId m v).2.keys → a ≠ t → ReachableAvoiding cfg a t := by
        intro a ha hat
        exact ReachableAvoiding.step (hInv₁.unassigned a ha v hvkeys₁) htsucc (Ne.symm hat)
      obtain ⟨hInv₂, hext₂, htkeys₂, -⟩ :=
        getBlockId_preserves cfg (getBlockId m v).2 t hInv₁ htreach hRAt
      have htlook₂ : (getBlockId (getBlockId m v).2 t).2.blockIds.lookup t
          = some (getBlockId (getBlockId m v).2 t).1 := (getBlockId_spec _ t).2
      simp only [Option.some.injEq, Prod.mk.injEq] at h
      obtain ⟨hbj, hej, hm'⟩ := h
      subst hm'
      have hext : ∃ Δ, (getBlockId (getBlockId m v).2 t).2.blockIds = m.blockIds ++ Δ := by
        obtain ⟨Δ₁, h₁⟩ := hext₁
        obtain ⟨Δ₂, h₂⟩ := hext₂
        exact ⟨Δ₁ ++ Δ₂, by rw [h₂, h₁, List.append_assoc]⟩
      refine ⟨hInv₂, hext, ⟨(getBlockId m v).1, instrs, ?_, rfl, hbj.symm, ?_⟩, ?_⟩
      · obtain ⟨Δ₂, h₂⟩ := hext₂
        rw [h₂]
        exact lookup_append_some hvlook₁
      · unfold ExitShape
        rw [hexit]
        exact ⟨(getBlockId (getBlockId m v).2 t).1, htlook₂, hej.symm⟩
      · intro w hw
        simp only [successors, hexit, exitSuccessors, List.mem_singleton] at hw
        rw [hw]
        exact htkeys₂
    | conditionalJump c z nz =>
      rw [hexit] at h
      have hzsucc : z ∈ successors cfg v := by simp [successors, hexit, exitSuccessors]
      have hnzsucc : nz ∈ successors cfg v := by simp [successors, hexit, exitSuccessors]
      have hzreach : Reachable cfg z := Reachable.step hreach hzsucc
      have hnzreach : Reachable cfg nz := Reachable.step hreach hnzsucc
      have hRAz : ∀ a, a ∉ (getBlockId m v).2.keys → a ≠ z → ReachableAvoiding cfg a z := by
        intro a ha haz
        exact ReachableAvoiding.step (hInv₁.unassigned a ha v hvkeys₁) hzsucc (Ne.symm haz)
      obtain ⟨hInv₂, hext₂, hzkeys₂, -⟩ :=
        getBlockId_preserves cfg (getBlockId m v).2 z hInv₁ hzreach hRAz
      have hzlook₂ : (getBlockId (getBlockId m v).2 z).2.blockIds.lookup z
          = some (getBlockId (getBlockId m v).2 z).1 := (getBlockId_spec _ z).2
      have hvkeys₂ : v ∈ (getBlockId (getBlockId m v).2 z).2.keys := by
        obtain ⟨Δ₂, h₂⟩ := hext₂
        simp only [IdMap.keys] at hvkeys₁ ⊢
        rw [h₂, List.map_append]
        exact List.mem_append.mpr (Or.inl hvkeys₁)
      have hRAnz : ∀ a, a ∉ (getBlockId (getBlockId m v).2 z).2.keys → a ≠ nz →
          ReachableAvoiding cfg a nz := by
        intro a ha hanz
        exact ReachableAvoiding.step (hInv₂.unassigned a ha v hvkeys₂) hnzsucc (Ne.symm hanz)
      obtain ⟨hInv₃, hext₃, hnzkeys₃, -⟩ :=
        getBlockId_preserves cfg (getBlockId (getBlockId m v).2 z).2 nz hInv₂ hnzreach hRAnz
      have hnzlook₃ :
          (getBlockId (getBlockId (getBlockId m v).2 z).2 nz).2.blockIds.lookup nz
          = some (getBlockId (getBlockId (getBlockId m v).2 z).2 nz).1 :=
        (getBlockId_spec _ nz).2
      simp only [Option.some.injEq, Prod.mk.injEq] at h
      obtain ⟨hbj, hej, hm'⟩ := h
      subst hm'
      have hext : ∃ Δ, (getBlockId (getBlockId (getBlockId m v).2 z).2 nz).2.blockIds
          = m.blockIds ++ Δ := by
        obtain ⟨Δ₁, h₁⟩ := hext₁
        obtain ⟨Δ₂, h₂⟩ := hext₂
        obtain ⟨Δ₃, h₃⟩ := hext₃
        exact ⟨Δ₁ ++ (Δ₂ ++ Δ₃), by rw [h₃, h₂, h₁]; simp [List.append_assoc]⟩
      have hzlook₃ :
          (getBlockId (getBlockId (getBlockId m v).2 z).2 nz).2.blockIds.lookup z
          = some (getBlockId (getBlockId m v).2 z).1 := by
        obtain ⟨Δ₃, h₃⟩ := hext₃
        rw [h₃]
        exact lookup_append_some hzlook₂
      refine ⟨hInv₃, hext, ⟨(getBlockId m v).1, instrs, ?_, rfl, hbj.symm, ?_⟩, ?_⟩
      · obtain ⟨Δ₂, h₂⟩ := hext₂
        obtain ⟨Δ₃, h₃⟩ := hext₃
        rw [h₃, h₂, List.append_assoc]
        exact lookup_append_some hvlook₁
      · unfold ExitShape
        rw [hexit]
        exact ⟨(getBlockId (getBlockId m v).2 z).1,
          (getBlockId (getBlockId (getBlockId m v).2 z).2 nz).1,
          hzlook₃, hnzlook₃, hej.symm⟩
      · intro w hw
        simp only [successors, hexit, exitSuccessors, List.mem_cons,
          List.mem_singleton, List.not_mem_nil, or_false] at hw
        rcases hw with hw | hw
        · rw [hw]
          obtain ⟨Δ₃, h₃⟩ := hext₃
          simp only [IdMap.keys] at hzkeys₂ ⊢
          rw [h₃, List.map_append]
          exact List.mem_append.mpr (Or.inl hzkeys₂)
        · rw [hw]
          exact hnzkeys₃
    | functionReturn f =>
      rw [hexit] at h
      simp only [Option.some.injEq, Prod.mk.injEq] at h
      obtain ⟨hbj, hej, hm'⟩ := h
      subst hm'
      refine ⟨hInv₁, hext₁, ⟨(getBlockId m v).1, instrs, hvlook₁, rfl, hbj.symm, ?_⟩, ?_⟩
      · unfold ExitShape
        rw [hexit]
        exact hej.symm
      · intro w hw
        simp [successors, hexit, exitSuccessors] at hw
    | terminated =>
      rw [hexit] at h
      simp only [Option.some.injEq, Prod.mk.injEq] at h
      obtain ⟨hbj, hej, hm'⟩ := h
      subst hm'
      refine ⟨hInv₁, hext₁, ⟨(getBlockId m v).1, instrs, hvlook₁, rfl, hbj.symm, ?_⟩, ?_⟩
      · unfold ExitShape
        rw [hexit]
        exact hej.symm
      · intro w hw
        simp [successors, hexit, exitSuccessors] at hw

/-! ## The traversal invariant -/

/-- Replay of the serialization along a visit order (specification
helper): the output and final ID table of a run are those of serializing
the visited blocks one after the other. -/
def serializeVisits (cfg : CFG) : IdMap → List Nat → Option (List Json × IdMap)
  | m, [] => some ([], m)
  | m, v :: vs =>
    match serializeVisit cfg m v with
    | none => none
    | some (bj, ej, m') =>
      match serializeVisits cfg m' vs with
      | none => none
      | some (out, mf) => some (bj :: ej :: out, mf)

theorem keys_mono {m m' : IdMap} (h : ∃ Δ, m'.blockIds = m.blockIds ++ Δ) :
    ∀ k ∈ m.keys, k ∈ m'.keys := by
  obtain ⟨Δ, hΔ⟩ := h
  intro k hk
  simp only [IdMap.keys, hΔ, List.map_append]
  exact List.mem_append.mpr (Or.inl hk)

/-- Successors always stay inside the mentionable universe. -/
theorem succ_mem_mentionable (cfg : CFG) {v w : Nat} (h : w ∈ successors cfg v) :
    w ∈ mentionable cfg := by
  by_cases hv : v < cfg.blocks.length
  · simp only [mentionable, List.mem_toFinset, List.mem_append]
    refine Or.inr (List.mem_flatMap.mpr ⟨v, List.mem_range.mpr hv, h⟩)
  · exfalso
    have hdef : getBlock cfg v = default :=
      List.getD_eq_default _ _ (Nat.le_of_not_lt hv)
    rw [successors, hdef] at h
    simp [exitSuccessors, default] at h

/-- An exit hands at most two successors to the worklist. -/
theorem successors_length_le (cfg : CFG) (v : Nat) : (successors cfg v).length ≤ 2 := by
  rw [successors]
  cases (getBlock cfg v).exit <;> simp [exitSuccessors]

/-- The loop invariant of the traversal. -/
structure Inv (cfg : CFG) (s : TraversalState) : Prop where
  idInv : IdInv cfg s.idMap
  visited_visits : s.visited = s.visits.toFinset
  visits_nodup : s.visits.Nodup
  queue_reach : ∀ q ∈ s.queue, Reachable cfg q
  queue_keyed : ∀ q ∈ s.queue, q ∈ s.idMap.keys ∨ q ∈ roots cfg
  visits_keyed : ∀ v ∈ s.visits, v ∈ s.idMap.keys
  frontier : ∀ v ∈ s.visits, ∀ w ∈ successors cfg v, w ∈ s.visits ∨ w ∈ s.queue
  roots_covered : ∀ r ∈ roots cfg, r ∈ s.visits ∨ r ∈ s.queue
  queue_univ : ∀ q ∈ s.queue, q ∈ mentionable cfg
  visits_univ : ∀ v ∈ s.visits, v ∈ mentionable cfg

/-- Every visited block is reachable. -/
theorem Inv.visits_reach {cfg : CFG} {s : TraversalState} (hInv : Inv cfg s) :
    ∀ v ∈ s.visits, Reachable cfg v := by
  intro v hv
  rcases List.mem_map.mp (hInv.visits_keyed v hv) with ⟨p, hp, hpv⟩
  rw [← hpv]
  exact hInv.idInv.keys_reach p hp

/-- Every visited block is mentionable. -/
theorem Inv.visited_univ {cfg : CFG} {s : TraversalState} (hInv : Inv cfg s) :
    s.visited ⊆ mentionable cfg := by
  intro v hv
  rw [hInv.visited_visits, List.mem_toFinset] at hv
  exact hInv.visits_univ v hv

/-- The initial state satisfies the invariant. -/
theorem inv_initial (cfg : CFG) : Inv cfg (initialState cfg) := by
  refine ⟨idInv_initial cfg, by simp [initialState], by simp [initialState],
    ?_, ?_, ?_, ?_, ?_, ?_, ?_⟩
  · intro q hq
    exact Reachable.root hq
  · intro q hq
    exact Or.inr hq
  · intro v hv
    simp [initialState] at hv
  · intro v hv
    simp [initialState] at hv
  · intro r hr
    exact Or.inr hr
  · intro q hq
    simp only [mentionable, List.mem_toFinset, List.mem_append]
    exact Or.inl hq
  · intro v hv
    simp [initialState] at hv

theorem mem_keys_of_lookup {m : IdMap} {k i : Nat}
    (h : m.blockIds.lookup k = some i) : k ∈ m.keys :=
  List.mem_map_of_mem Prod.fst (lookup_mem h)

/-- Popping an already-visited vertex preserves the invariant. -/
theorem skip_preserves_inv {cfg : CFG} {s : TraversalState} {v : Nat} {rest : List Nat}
    (hInv : Inv cfg s) (hq : s.queue = v :: rest) (hv : v ∈ s.visited) :
    Inv cfg { s with queue := rest } := by
  have hvv : v ∈ s.visits := by
    rw [hInv.visited_visits, List.mem_toFinset] at hv
    exact hv
  refine ⟨hInv.idInv, hInv.visited_visits, hInv.visits_nodup, ?_, ?_,
    hInv.visits_keyed, ?_, ?_, ?_, hInv.visits_univ⟩
  · intro q hq'
    exact hInv.queue_reach q (by rw [hq]; exact List.mem_cons_of_mem _ hq')
  · intro q hq'
    exact hInv.queue_keyed q (by rw [hq]; exact List.mem_cons_of_mem _ hq')
  · intro u hu w hw
    rcases hInv.frontier u hu w hw with h | h
    · exact Or.inl h
    · rw [hq] at h
      rcases List.mem_cons.mp h with h | h
      · exact Or.inl (h ▸ hvv)
      · exact Or.inr h
  · intro r hr
    rcases hInv.roots_covered r hr with h | h
    · exact Or.inl h
    · rw [hq] at h
      rcases List.mem_cons.mp h with h | h
      · exact Or.inl (h ▸ hvv)
      · exact Or.inr h
  · intro q hq'
    exact hInv.queue_univ q (by rw [hq]; exact List.mem_cons_of_mem _ hq')

/-- Visiting a fresh vertex preserves the invariant; the visit appends the
vertex's two records to the output and its unvisited successors to the
worklist. -/
theorem visit_preserves_inv {cfg : CFG} {s : TraversalState} {v : Nat} {rest : List Nat}
    (hInv : Inv cfg s) (hq : s.queue = v :: rest) (hnv : v ∉ s.visited)
    {s₂ : TraversalState}
    (h : visitStep cfg { s with queue := rest, visited := insert v s.visited } v = some s₂) :
    Inv cfg s₂ ∧ ∃ bj ej, serializeVisit cfg s.idMap v = some (bj, ej, s₂.idMap) ∧
      s₂.output = s.output ++ [bj, ej] ∧ s₂.visits = s.visits ++ [v] ∧
      s₂.visited = insert v s.visited ∧
      s₂.queue = rest ++ (successors cfg v).filter (fun w => w ∉ insert v s.visited) ∧
      (∃ Δ, s₂.idMap.blockIds = s.idMap.blockIds ++ Δ) := by
  have hvq : v ∈ s.queue := by rw [hq]; exact List.mem_cons_self v rest
  have hvreach : Reachable cfg v := hInv.queue_reach v hvq
  have hvkeyed : v ∈ s.idMap.keys ∨ v ∈ roots cfg := hInv.queue_keyed v hvq
  have hvnvisits : v ∉ s.visits := by
    intro hcon
    exact hnv (by rw [hInv.visited_visits, List.mem_toFinset]; exact hcon)
  unfold visitStep at h
  cases hser : serializeVisit cfg s.idMap v with
  | none =>
    rw [show ({ s with queue := rest, visited := insert v s.visited } :
        TraversalState).idMap = s.idMap from rfl, hser] at h
    cases h
  | some trip =>
    obtain ⟨bj, ej, m'⟩ := trip
    rw [show ({ s with queue := rest, visited := insert v s.visited } :
        TraversalState).idMap = s.idMap from rfl, hser] at h
    simp only [Option.some.injEq] at h
    obtain ⟨hInvId, hext, ⟨idv, instrs, hvlook, hmapM, hbj, hshape⟩, hsucckeys⟩ :=
      serializeVisit_some hInv.idInv hvreach hvkeyed hser
    subst h
    have hvisited : (insert v s.visited : Finset Nat) = (s.visits ++ [v]).toFinset := by
      rw [hInv.visited_visits]
      ext a
      simp [or_comm]
    refine ⟨⟨hInvId, hvisited, ?_, ?_, ?_, ?_, ?_, ?_, ?_, ?_⟩,
      bj, ej, rfl, rfl, rfl, rfl, rfl, hext⟩
    · simp only [List.nodup_append, List.nodup_cons, List.nodup_nil]
      exact ⟨hInv.visits_nodup, by simp, by simpa using hvnvisits⟩
    · intro q hq'
      rcases List.mem_append.mp hq' with hq' | hq'
      · exact hInv.queue_reach q (by rw [hq]; exact List.mem_cons_of_mem _ hq')
      · exact Reachable.step hvreach (List.mem_of_mem_filter hq')
    · intro q hq'
      rcases List.mem_append.mp hq' with hq' | hq'
      · rcases hInv.queue_keyed q (by rw [hq]; exact List.mem_cons_of_mem _ hq') with h | h
        · exact Or.inl (keys_mono hext q h)
        · exact Or.inr h
      · exact Or.inl (hsucckeys q (List.mem_of_mem_filter hq'))
    · intro u hu
      rcases List.mem_append.mp hu with hu | hu
      · exact keys_mono hext u (hInv.visits_keyed u hu)
      · simp only [List.mem_singleton] at hu
        rw [hu]
        exact mem_keys_of_lookup hvlook
    · intro u hu w hw
      rcases List.mem_append.mp hu with hu | hu
      · rcases hInv.frontier u hu w hw with hw' | hw'
        · exact Or.inl (List.mem_append.mpr (Or.inl hw'))
        · rw [hq] at hw'
          rcases List.mem_cons.mp hw' with hw' | hw'
          · exact Or.inl (List.mem_append.mpr (Or.inr (by simp [hw'])))
          · exact Or.inr (List.mem_append.mpr (Or.inl hw'))
      · simp only [List.mem_singleton] at hu
        rw [hu] at hw
        by_cases hwv : w ∈ (insert v s.visited : Finset Nat)
        · rcases Finset.mem_insert.mp hwv with hwv | hwv
          · exact Or.inl (List.mem_append.mpr (Or.inr (by simp [hwv])))
          · refine Or.inl (List.mem_append.mpr (Or.inl ?_))
            rw [hInv.visited_visits, List.mem_toFinset] at hwv
            exact hwv
        · refine Or.inr (List.mem_append.mpr (Or.inr ?_))
          rw [List.mem_filter]
          exact ⟨hw, by simpa using hwv⟩
    · intro r hr
      rcases hInv.roots_covered r hr with h | h
      · exact Or.inl (List.mem_append.mpr (Or.inl h))
      · rw [hq] at h
        rcases List.mem_cons.mp h with h | h
        · exact Or.inl (List.mem_append.mpr (Or.inr (by simp [h])))
        · exact Or.inr (List.mem_append.mpr (Or.inl h))
    · intro q hq'
      rcases List.mem_append.mp hq' with hq' | hq'
      · exact hInv.queue_univ q (by rw [hq]; exact List.mem_cons_of_mem _ hq')
      · exact succ_mem_mentionable cfg (List.mem_of_mem_filter hq')
    · intro u hu
      rcases List.mem_append.mp hu with hu | hu
      · exact hInv.visits_univ u hu
      · simp only [List.mem_singleton] at hu
        rw [hu]
        exact hInv.queue_univ v hvq

/-! ## The loop inductions -/

theorem traverse_succ (cfg : CFG) (fuel : Nat) (s : TraversalState) :
    traverse cfg (fuel + 1) s =
      match s.queue with
      | [] => .ok s
      | v :: rest =>
        if v ∈ s.visited then traverse cfg fuel { s with queue := rest }
        else match visitStep cfg { s with queue := rest, visited := insert v s.visited } v with
          | none => .fail
          | some s' => traverse cfg fuel s' := rfl

theorem traverse_succ_nil (cfg : CFG) (fuel : Nat) (s : TraversalState)
    (hq : s.queue = []) : traverse cfg (fuel + 1) s = .ok s := by
  rw [traverse_succ, hq]

theorem traverse_succ_cons (cfg : CFG) (fuel : Nat) (s : TraversalState)
    (v : Nat) (rest : List Nat) (hq : s.queue = v :: rest) :
    traverse cfg (fuel + 1) s =
      if v ∈ s.visited then traverse cfg fuel { s with queue := rest }
      else match visitStep cfg { s with queue := rest, visited := insert v s.visited } v with
        | none => .fail
        | some s' => traverse cfg fuel s' := by
  rw [traverse_succ, hq]

/-- A run that ends regularly: the invariant holds at the end, the
worklist is empty, and the output and ID table are the serialization of
the visits performed, in order. -/
theorem traverse_ok (cfg : CFG) : ∀ (fuel : Nat) (s s' : TraversalState),
    traverse cfg fuel s = .ok s' → Inv cfg s →
    Inv cfg s' ∧ s'.queue = [] ∧
    ∃ vs Δout, s'.visits = s.visits ++ vs ∧ s'.output = s.output ++ Δout ∧
      serializeVisits cfg s.idMap vs = some (Δout, s'.idMap) := by
  intro fuel
  induction fuel with
  | zero =>
    intro s s' h hInv
    cases h
  | succ fuel ih =>
    intro s s' h hInv
    cases hq : s.queue with
    | nil =>
      rw [traverse_succ_nil cfg fuel s hq] at h
      cases h
      exact ⟨hInv, hq, [], [], by simp, by simp, rfl⟩
    | cons v rest =>
      rw [traverse_succ_cons cfg fuel s v rest hq] at h
      by_cases hv : v ∈ s.visited
      · rw [if_pos hv] at h
        obtain ⟨hInv', hq', vs, Δout, hvisits, hout, hser⟩ :=
          ih _ s' h (skip_preserves_inv hInv hq hv)
        exact ⟨hInv', hq', vs, Δout, hvisits, hout, hser⟩
      · rw [if_neg hv] at h
        cases hstep : visitStep cfg
            { s with queue := rest, visited := insert v s.visited } v with
        | none =>
          rw [hstep] at h
          cases h
        | some s₂ =>
          rw [hstep] at h
          obtain ⟨hInv₂, bj, ej, hser1, hout₂, hvis₂, hvd₂, hq₂, hext₂⟩ :=
            visit_preserves_inv hInv hq hv hstep
          obtain ⟨hInv', hq', vs, Δout, hvisits, hout, hser⟩ := ih s₂ s' h hInv₂
          refine ⟨hInv', hq', v :: vs, bj :: ej :: Δout, ?_, ?_, ?_⟩
          · rw [hvisits, hvis₂, List.append_assoc]
            rfl
          · rw [hout, hout₂, List.append_assoc]
            rfl
          · rw [show serializeVisits cfg s.idMap (v :: vs)
                = (match serializeVisit cfg s.idMap v with
                   | none => none
                   | some (bj, ej, m') =>
                     match serializeVisits cfg m' vs with
                     | none => none
                     | some (out, mf) => some (bj :: ej :: out, mf)) from rfl,
              hser1]
            simp only [hser]

/-- A run that aborts did so on a reachable block holding a bad builtin
call. -/
theorem traverse_fail (cfg : CFG) : ∀ (fuel : Nat) (s : TraversalState),
    traverse cfg fuel s = .fail → Inv cfg s →
    ∃ v, Reachable cfg v ∧ ∃ op ∈ (getBlock cfg v).operations, BadOperation op := by
  intro fuel
  induction fuel with
  | zero =>
    intro s h hInv
    cases h
  | succ fuel ih =>
    intro s h hInv
    cases hq : s.queue with
    | nil =>
      rw [traverse_succ_nil cfg fuel s hq] at h
      cases h
    | cons v rest =>
      rw [traverse_succ_cons cfg fuel s v rest hq] at h
      by_cases hv : v ∈ s.visited
      · rw [if_pos hv] at h
        exact ih _ h (skip_preserves_inv hInv hq hv)
      · rw [if_neg hv] at h
        cases hstep : visitStep cfg
            { s with queue := rest, visited := insert v s.visited } v with
        | none =>
          have hvreach : Reachable cfg v :=
            hInv.queue_reach v (by rw [hq]; exact List.mem_cons_self v rest)
          unfold visitStep at hstep
          cases hser : serializeVisit cfg s.idMap v with
          | none => exact ⟨v, hvreach, serializeVisit_none hser⟩
          | some trip =>
            obtain ⟨bj, ej, m'⟩ := trip
            rw [show ({ s with queue := rest, visited := insert v s.visited } :
                TraversalState).idMap = s.idMap from rfl, hser] at hstep
            cases hstep
        | some s₂ =>
          rw [hstep] at h
          exact ih s₂ h (visit_preserves_inv hInv hq hv hstep).1

/-- With the measure `|queue| + 2·|mentionable ∖ visited|` below the fuel,
the loop never runs out of fuel. -/
theorem traverse_enough_fuel (cfg : CFG) : ∀ (fuel : Nat) (s : TraversalState),
    Inv cfg s →
    s.queue.length + 2 * ((mentionable cfg) \ s.visited).card < fuel →
    traverse cfg fuel s ≠ .outOfFuel := by
  intro fuel
  induction fuel with
  | zero =>
    intro s _ hlt
    exact absurd hlt (Nat.not_lt_zero _)
  | succ fuel ih =>
    intro s hInv hlt h
    cases hq : s.queue with
    | nil =>
      rw [traverse_succ_nil cfg fuel s hq] at h
      cases h
    | cons v rest =>
      rw [traverse_succ_cons cfg fuel s v rest hq] at h
      rw [hq, List.length_cons] at hlt
      by_cases hv : v ∈ s.visited
      · rw [if_pos hv] at h
        refine ih _ (skip_preserves_inv hInv hq hv) ?_ h
        simp only []
        omega
      · rw [if_neg hv] at h
        cases hstep : visitStep cfg
            { s with queue := rest, visited := insert v s.visited } v with
        | none =>
          rw [hstep] at h
          cases h
        | some s₂ =>
          rw [hstep] at h
          obtain ⟨hInv₂, bj, ej, -, -, -, hvd₂, hq₂, -⟩ :=
            visit_preserves_inv hInv hq hv hstep
          refine ih s₂ hInv₂ ?_ h
          have hvM : v ∈ mentionable cfg :=
            hInv.queue_univ v (by rw [hq]; exact List.mem_cons_self v rest)
          have hvMd : v ∈ (mentionable cfg) \ s.visited := Finset.mem_sdiff.mpr ⟨hvM, hv⟩
          have hcard : ((mentionable cfg) \ insert v s.visited).card
              = ((mentionable cfg) \ s.visited).card - 1 := by
            rw [Finset.sdiff_insert, Finset.card_erase_of_mem hvMd]
          have hpos : 0 < ((mentionable cfg) \ s.visited).card :=
            Finset.card_pos.mpr ⟨v, hvMd⟩
          have hqlen : s₂.queue.length ≤ rest.length + 2 := by
            rw [hq₂, List.length_append]
            have hfil := List.length_filter_le
              (fun w => w ∉ insert v s.visited) (successors cfg v)
            have h2 := successors_length_le cfg v
            omega
          rw [hvd₂, hcard]
          omega

/-- The exported fuel bound always suffices. -/
theorem exportCFG_ne_outOfFuel (cfg : CFG) : exportCFG cfg ≠ .outOfFuel := by
  unfold exportCFG
  refine traverse_enough_fuel cfg (exportFuel cfg) (initialState cfg) (inv_initial cfg) ?_
  have hinit : (initialState cfg).queue = roots cfg := rfl
  have hvinit : (initialState cfg).visited = (∅ : Finset Nat) := rfl
  rw [hinit, hvinit, Finset.sdiff_empty, exportFuel]
  omega

/-! ## Locating a block's records in the output -/

theorem firstIndex_spec : ∀ (l : List Nat) (v k : Nat), firstIndex l v = some k →
    ∃ hk : k < l.length, l.get ⟨k, hk⟩ = v := by
  intro l
  induction l with
  | nil =>
    intro v k h
    cases h
  | cons x xs ih =>
    intro v k h
    unfold firstIndex at h
    by_cases hxv : x = v
    · rw [if_pos hxv] at h
      cases h
      exact ⟨Nat.zero_lt_succ _, hxv⟩
    · rw [if_neg hxv, Option.map_eq_some'] at h
      obtain ⟨k', hk', hkk⟩ := h
      obtain ⟨hlt, hget⟩ := ih v k' hk'
      subst hkk
      exact ⟨by simpa using Nat.succ_lt_succ hlt, by simpa using hget⟩

theorem firstIndex_isSome : ∀ (l : List Nat) (v : Nat), v ∈ l →
    ∃ k, firstIndex l v = some k := by
  intro l
  induction l with
  | nil =>
    intro v h
    cases h
  | cons x xs ih =>
    intro v h
    unfold firstIndex
    by_cases hxv : x = v
    · exact ⟨0, by rw [if_pos hxv]⟩
    · rcases List.mem_cons.mp h with h | h
      · exact absurd h.symm hxv
      · obtain ⟨k, hk⟩ := ih v h
        exact ⟨k + 1, by rw [if_neg hxv, hk]; rfl⟩

/-- Indexing into an alternating record list. -/
theorem flatMap_pairs_get : ∀ (recs : List (Json × Json)) (k : Nat) (hk : k < recs.length),
    (recs.flatMap (fun p => [p.1, p.2])).get? (2 * k) = some (recs.get ⟨k, hk⟩).1 ∧
    (recs.flatMap (fun p => [p.1, p.2])).get? (2 * k + 1) = some (recs.get ⟨k, hk⟩).2 := by
  intro recs
  induction recs with
  | nil =>
    intro k hk
    cases hk
  | cons p rest ih =>
    intro k hk
    cases k with
    | zero => exact ⟨rfl, rfl⟩
    | succ k' =>
      have hk' : k' < rest.length := by simpa using Nat.lt_of_succ_lt_succ hk
      have h2 : 2 * (k' + 1) = (2 * k') + 2 := by ring
      obtain ⟨h₁, h₂⟩ := ih k' hk'
      constructor
      · rw [h2]
        simpa using h₁
      · rw [h2]
        simpa using h₂

/-! ## Shape of the serialized records, without invariants -/

/-- The record shapes a successful visit produces, with the visited
block's ID pinned to the `getBlockId` result (no invariant needed). -/
theorem serializeVisit_shape {cfg : CFG} {m : IdMap} {v : Nat} {bj ej : Json} {m' : IdMap}
    (h : serializeVisit cfg m v = some (bj, ej, m')) :
    (∃ Δ, m'.blockIds = (getBlockId m v).2.blockIds ++ Δ) ∧
    ∃ instrs, m'.blockIds.lookup v = some (getBlockId m v).1 ∧
      (getBlock cfg v).operations.mapM operationToJson = some instrs ∧
      bj = blockRecordJson (getBlockId m v).1 instrs ∧
      ExitShape cfg m' v (getBlockId m v).1 ej := by
  have hvlook₁ : (getBlockId m v).2.blockIds.lookup v = some (getBlockId m v).1 :=
    (getBlockId_spec m v).2
  unfold serializeVisit basicBlockToJson at h
  cases hmapM : (getBlock cfg v).operations.mapM operationToJson with
  | none =>
    rw [hmapM] at h
    cases h
  | some instrs =>
    rw [hmapM] at h
    simp only at h
    unfold exitBlockToJson at h
    rw [getBlockId_assigned hvlook₁] at h
    cases hexit : (getBlock cfg v).exit with
    | mainExit =>
      rw [hexit] at h
      simp only [Option.some.injEq, Prod.mk.injEq] at h
      obtain ⟨hbj, hej, hm'⟩ := h
      subst hm'
      exact ⟨⟨[], by simp⟩, instrs, hvlook₁, rfl, hbj.symm, by unfold ExitShape; rw [hexit]; exact hej.symm⟩
    | jump t =>
      rw [hexit] at h
      have htlook₂ : (getBlockId (getBlockId m v).2 t).2.blockIds.lookup t
          = some (getBlockId (getBlockId m v).2 t).1 := (getBlockId_spec _ t).2
      obtain ⟨hext₂, -⟩ := getBlockId_spec (getBlockId m v).2 t
      simp only [Option.some.injEq, Prod.mk.injEq] at h
      obtain ⟨hbj, hej, hm'⟩ := h
      subst hm'
      refine ⟨hext₂, instrs, ?_, rfl, hbj.symm, ?_⟩
      · obtain ⟨Δ, hΔ⟩ := hext₂
        rw [hΔ]
        exact lookup_append_some hvlook₁
      · unfold ExitShape
        rw [hexit]
        exact ⟨(getBlockId (getBlockId m v).2 t).1, htlook₂, hej.symm⟩
    | conditionalJump c z nz =>
      rw [hexit] at h
      obtain ⟨hext₂, hzlook₂⟩ := getBlockId_spec (getBlockId m v).2 z
      obtain ⟨hext₃, hnzlook₃⟩ := getBlockId_spec (getBlockId (getBlockId m v).2 z).2 nz
      simp only [Option.some.injEq, Prod.mk.injEq] at h
      obtain ⟨hbj, hej, hm'⟩ := h
      subst hm'
      have hext : ∃ Δ, (getBlockId (getBlockId (getBlockId m v).2 z).2 nz).2.blockIds
          = (getBlockId m v).2.blockIds ++ Δ := by
        obtain ⟨Δ₂, h₂⟩ := hext₂
        obtain ⟨Δ₃, h₃⟩ := hext₃
        exact ⟨Δ₂ ++ Δ₃, by rw [h₃, h₂, List.append_assoc]⟩
      refine ⟨hext, instrs, ?_, rfl, hbj.symm, ?_⟩
      · obtain ⟨Δ, hΔ⟩ := hext
        rw [hΔ]
        exact lookup_append_some hvlook₁
      · unfold ExitShape
        rw [hexit]
        refine ⟨(getBlockId (getBlockId m v).2 z).1,
          (getBlockId (getBlockId (getBlockId m v).2 z).2 nz).1, ?_, hnzlook₃, hej.symm⟩
        obtain ⟨Δ₃, h₃⟩ := hext₃
        rw [h₃]
        exact lookup_append_some hzlook₂
    | functionReturn f =>
      rw [hexit] at h
      simp only [Option.some.injEq, Prod.mk.injEq] at h
      obtain ⟨hbj, hej, hm'⟩ := h
      subst hm'
      exact ⟨⟨[], by simp⟩, instrs, hvlook₁, rfl, hbj.symm, by unfold ExitShape; rw [hexit]; exact hej.symm⟩
    | terminated =>
      rw [hexit] at h
      simp only [Option.some.injEq, Prod.mk.injEq] at h
      obtain ⟨hbj, hej, hm'⟩ := h
      subst hm'
      exact ⟨⟨[], by simp⟩, instrs, hvlook₁, rfl, hbj.symm, by unfold ExitShape; rw [hexit]; exact hej.symm⟩

/-- The serialized output of a visit sequence is an alternating list of
block/exit record pairs, one pair per visit, each of the declared shape,
with all block IDs resolvable in the final table. -/
theorem serializeVisits_shape (cfg : CFG) : ∀ (vs : List Nat) (m mf : IdMap) (out : List Json),
    serializeVisits cfg m vs = some (out, mf) →
    (∃ Δ, mf.blockIds = m.blockIds ++ Δ) ∧
    ∃ recs : List (Json × Json), out = recs.flatMap (fun p => [p.1, p.2]) ∧
      recs.length = vs.length ∧
      ∀ pr ∈ recs.zip vs, ∃ idv instrs,
        mf.blockIds.lookup pr.2 = some idv ∧
        (getBlock cfg pr.2).operations.mapM operationToJson = some instrs ∧
        pr.1.1 = blockRecordJson idv instrs ∧
        ExitShape cfg mf pr.2 idv pr.1.2 := by
  intro vs
  induction vs with
  | nil =>
    intro m mf out h
    rw [show serializeVisits cfg m [] = some ([], m) from rfl] at h
    simp only [Option.some.injEq, Prod.mk.injEq] at h
    obtain ⟨hout, hmf⟩ := h
    subst hmf
    exact ⟨⟨[], by simp⟩, [], by simp [← hout], by simp [← hout], by simp⟩
  | cons v vs ih =>
    intro m mf out h
    rw [show serializeVisits cfg m (v :: vs)
        = (match serializeVisit cfg m v with
           | none => none
           | some (bj, ej, m') =>
             match serializeVisits cfg m' vs with
             | none => none
             | some (out, mf) => some (bj :: ej :: out, mf)) from rfl] at h
    cases hser : serializeVisit cfg m v with
    | none =>
      rw [hser] at h
      cases h
    | some trip =>
      obtain ⟨bj, ej, m₁⟩ := trip
      cases hrest : serializeVisits cfg m₁ vs with
      | none =>
        simp only [hser, hrest] at h
        cases h
      | some pr =>
        obtain ⟨out', mf'⟩ := pr
        simp only [hser, hrest, Option.some.injEq, Prod.mk.injEq] at h
        obtain ⟨hout, hmf⟩ := h
        subst hmf
        obtain ⟨hext₁, instrs, hvlook, hmapM, hbj, hshape⟩ := serializeVisit_shape hser
        obtain ⟨hextr, recs, houtr, hlenr, hfacts⟩ := ih m₁ mf' out' hrest
        have hextm : ∃ Δ, mf'.blockIds = m.blockIds ++ Δ := by
          obtain ⟨Δ₀, h₀⟩ := (getBlockId_spec m v).1
          obtain ⟨Δ₁, h₁⟩ := hext₁
          obtain ⟨Δ₂, h₂⟩ := hextr
          exact ⟨Δ₀ ++ (Δ₁ ++ Δ₂), by rw [h₂, h₁, h₀]; simp [List.append_assoc]⟩
        refine ⟨hextm, (bj, ej) :: recs, ?_, ?_, ?_⟩
        · rw [← hout, houtr]
          rfl
        · simpa using hlenr
        · intro pr hpr
          rcases List.mem_cons.mp hpr with hpr | hpr
          · subst hpr
            refine ⟨(getBlockId m v).1, instrs, ?_, hmapM, hbj, ?_⟩
            · obtain ⟨Δ₂, h₂⟩ := hextr
              rw [h₂]
              exact lookup_append_some hvlook
            · exact hshape.mono hextr
          · exact hfacts pr hpr

/-! ## Final-state facts -/

theorem exportCFG_ok_spec {cfg : CFG} {s' : TraversalState} (h : exportCFG cfg = .ok s') :
    Inv cfg s' ∧ s'.queue = [] ∧
    serializeVisits cfg ⟨[], 0⟩ s'.visits = some (s'.output, s'.idMap) := by
  obtain ⟨hInv', hq', vs, Δout, hvisits, hout, hser⟩ :=
    traverse_ok cfg (exportFuel cfg) (initialState cfg) s' h (inv_initial cfg)
  have hvs : s'.visits = vs := by simpa [initialState] using hvisits
  have hΔ : s'.output = Δout := by simpa [initialState] using hout
  refine ⟨hInv', hq', ?_⟩
  rw [hvs, hΔ]
  exact hser

theorem visits_iff_reachable {cfg : CFG} {s' : TraversalState} (h : exportCFG cfg = .ok s') :
    ∀ v, v ∈ s'.visits ↔ Reachable cfg v := by
  obtain ⟨hInv', hq', -⟩ := exportCFG_ok_spec h
  intro v
  constructor
  · exact hInv'.visits_reach v
  · intro hreach
    induction hreach with
    | root hr =>
      rcases hInv'.roots_covered _ hr with h' | h'
      · exact h'
      · rw [hq'] at h'
        cases h'
    | step hv hw ih =>
      rcases hInv'.frontier _ ih _ hw with h' | h'
      · exact h'
      · rw [hq'] at h'
        cases h'

theorem exportJson_ok {cfg : CFG} {s' : TraversalState} (h : exportCFG cfg = .ok s') :
    exportJson cfg = some s'.output := by
  unfold exportJson
  rw [h]

theorem visitsOf_ok {cfg : CFG} {s' : TraversalState} (h : exportCFG cfg = .ok s') :
    visitsOf cfg = s'.visits := by
  unfold visitsOf
  rw [h]

theorem idsOf_ok {cfg : CFG} {s' : TraversalState} (h : exportCFG cfg = .ok s') :
    idsOf cfg = s'.idMap.blockIds := by
  unfold idsOf
  rw [h]

theorem exportJson_isSome_ok {cfg : CFG} (h : (exportJson cfg).isSome = true) :
    ∃ s', exportCFG cfg = .ok s' := by
  unfold exportJson at h
  cases hc : exportCFG cfg with
  | ok s => exact ⟨s, rfl⟩
  | fail =>
    rw [hc] at h
    cases h
  | outOfFuel =>
    rw [hc] at h
    cases h

/-- Locate a visited block's pair of records inside the final output. -/
theorem record_pair_of_visit {cfg : CFG} {s' : TraversalState} (h : exportCFG cfg = .ok s')
    {v : Nat} (hv : v ∈ s'.visits) :
    ∃ idv instrs bj ej,
      blockRecordOf cfg v = some bj ∧
      exitRecordOf cfg v = some ej ∧
      s'.idMap.blockIds.lookup v = some idv ∧
      (getBlock cfg v).operations.mapM operationToJson = some instrs ∧
      bj = blockRecordJson idv instrs ∧
      ExitShape cfg s'.idMap v idv ej := by
  obtain ⟨hInv', hq', hser⟩ := exportCFG_ok_spec h
  obtain ⟨hext, recs, hout, hlen, hfacts⟩ :=
    serializeVisits_shape cfg s'.visits ⟨[], 0⟩ s'.idMap s'.output hser
  obtain ⟨k, hk⟩ := firstIndex_isSome s'.visits v hv
  obtain ⟨hklt, hkget⟩ := firstIndex_spec s'.visits v k hk
  have hvio : visitIndexOf cfg v = some k := by
    unfold visitIndexOf
    rw [visitsOf_ok h]
    exact hk
  have hkrecs : k < recs.length := by rw [hlen]; exact hklt
  have hzip : (recs.get ⟨k, hkrecs⟩, s'.visits.get ⟨k, hklt⟩) ∈ recs.zip s'.visits := by
    have hcomb : k < (recs.zip s'.visits).length := by
      rw [List.length_zip]
      omega
    have hzget : (recs.zip s'.visits).get ⟨k, hcomb⟩
        = (recs.get ⟨k, hkrecs⟩, s'.visits.get ⟨k, hklt⟩) := by
      simp [List.get_zip]
    rw [← hzget]
    exact List.get_mem _ k hcomb
  obtain ⟨idv, instrs, hlook, hmapM, hbj, hshape⟩ := hfacts _ hzip
  rw [hkget] at hlook hmapM hshape
  obtain ⟨hget1, hget2⟩ := flatMap_pairs_get recs k hkrecs
  refine ⟨idv, instrs, (recs.get ⟨k, hkrecs⟩).1, (recs.get ⟨k, hkrecs⟩).2, ?_, ?_,
    hlook, hmapM, hbj, hshape⟩
  · unfold blockRecordOf
    rw [hvio, exportJson_ok h]
    show s'.output.get? (2 * k) = some (recs.get ⟨k, hkrecs⟩).1
    rw [hout]
    exact hget1
  · unfold exitRecordOf
    rw [hvio, exportJson_ok h]
    show s'.output.get? (2 * k + 1) = some (recs.get ⟨k, hkrecs⟩).2
    rw [hout]
    exact hget2

/-! ## Consequences for the block-ID order -/

theorem ReachableAvoiding.reachable {cfg : CFG} {a v : Nat}
    (h : ReachableAvoiding cfg a v) : Reachable cfg v := by
  induction h with
  | root hr _ => exact Reachable.root hr
  | step _ hw _ ih => exact Reachable.step ih hw

theorem reachable_avoid_or {cfg : CFG} (a : Nat) {b : Nat} (h : Reachable cfg b) :
    ReachableAvoiding cfg a b ∨ Reachable cfg a := by
  induction h with
  | root hr =>
    rename_i v
    by_cases hva : v = a
    · exact Or.inr (hva ▸ Reachable.root hr)
    · exact Or.inl (ReachableAvoiding.root hr hva)
  | step hv hw ih =>
    rename_i v w
    rcases ih with hra | hra
    · by_cases hwa : w = a
      · exact Or.inr (hwa ▸ Reachable.step hv hw)
      · exact Or.inl (ReachableAvoiding.step hra hw hwa)
    · exact Or.inr hra

theorem mapM_option_ne_none {α β : Type} {f : α → Option β} {l : List α} {r : List β}
    (h : l.mapM f = some r) : ∀ a ∈ l, f a ≠ none := by
  intro a ha hfa
  have hnone : l.mapM f = none := by
    clear h
    induction l with
    | nil => cases ha
    | cons x xs ih =>
      rw [List.mapM_cons]
      rcases List.mem_cons.mp ha with h' | h'
      · subst h'
        rw [hfa]
        rfl
      · cases hx : f x with
        | none => rfl
        | some b =>
          rw [ih h']
          rfl
  rw [hnone] at h
  cases h

/-- In a successful export the table's IDs are their own positions. -/
theorem ids_snd_get {cfg : CFG} {s' : TraversalState} (h : exportCFG cfg = .ok s')
    (idx : Nat) (hidx : idx < s'.idMap.blockIds.length) :
    (s'.idMap.blockIds.get ⟨idx, hidx⟩).2 = idx := by
  obtain ⟨hInv', -, -⟩ := exportCFG_ok_spec h
  have hmap := hInv'.idInv.ids_snd
  have h1 : (s'.idMap.blockIds.map Prod.snd).get ⟨idx, by simpa using hidx⟩
      = (s'.idMap.blockIds.get ⟨idx, hidx⟩).2 := by
    simp
  have h2 := List.get_of_eq hmap ⟨idx, by simpa using hidx⟩
  rw [h1] at h2
  rw [h2]
  simp

/-- A block only reachable through another receives the strictly larger
ID. -/
theorem ids_strict_order {cfg : CFG} {s' : TraversalState} (h : exportCFG cfg = .ok s')
    {a b : Nat} (hab : OnlyReachableThrough cfg a b) :
    ∃ ia ib, s'.idMap.blockIds.lookup a = some ia ∧
      s'.idMap.blockIds.lookup b = some ib ∧ ia < ib := by
  obtain ⟨hInv', hq', -⟩ := exportCFG_ok_spec h
  obtain ⟨hbreach, hba, hnRA⟩ := hab
  have hareach : Reachable cfg a := by
    rcases reachable_avoid_or a hbreach with hra | hra
    · exact absurd hra hnRA
    · exact hra
  have hbvis : b ∈ s'.visits := (visits_iff_reachable h b).mpr hbreach
  have havis : a ∈ s'.visits := (visits_iff_reachable h a).mpr hareach
  obtain ⟨ia, hia⟩ := lookup_isSome_of_mem_keys (hInv'.visits_keyed a havis)
  obtain ⟨ib, hib⟩ := lookup_isSome_of_mem_keys (hInv'.visits_keyed b hbvis)
  refine ⟨ia, ib, hia, hib, ?_⟩
  obtain ⟨i, hi⟩ := List.get_of_mem (lookup_mem hia)
  obtain ⟨j, hj⟩ := List.get_of_mem (lookup_mem hib)
  have hisnd : ia = i.1 := by
    have := ids_snd_get h i.1 i.2
    rw [hi] at this
    exact this
  have hjsnd : ib = j.1 := by
    have := ids_snd_get h j.1 j.2
    rw [hj] at this
    exact this
  rcases Nat.lt_trichotomy i.1 j.1 with hlt | heq | hgt
  · omega
  · exfalso
    have : i = j := Fin.ext heq
    rw [this, hj] at hi
    exact hba (congrArg Prod.fst hi)
  · exfalso
    have hR := List.pairwise_iff_get.mp hInv'.idInv.pairwise j i hgt
    rw [hi, hj] at hR
    exact hnRA hR

/-- The main entry — popped and serialized first — receives ID `0`. -/
theorem entry_id_zero {cfg : CFG} {s' : TraversalState} (h : exportCFG cfg = .ok s') :
    s'.idMap.blockIds.lookup cfg.entry = some 0 := by
  have hfuel : exportFuel cfg = ((roots cfg).length + 2 * (mentionable cfg).card) + 1 := rfl
  unfold exportCFG at h
  rw [hfuel] at h
  rw [traverse_succ_cons cfg _ (initialState cfg) cfg.entry cfg.functionEntries rfl] at h
  rw [if_neg (by simp [initialState])] at h
  cases hstep : visitStep cfg
      ({ initialState cfg with
          queue := cfg.functionEntries,
          visited := insert cfg.entry (initialState cfg).visited }) cfg.entry with
  | none =>
    rw [hstep] at h
    cases h
  | some s₂ =>
    rw [hstep] at h
    obtain ⟨hInv₂, bj, ej, hser₂, -, -, -, -, -⟩ :=
      visit_preserves_inv (inv_initial cfg) rfl (by simp [initialState]) hstep
    obtain ⟨hext, instrs, hlook, -, -, -⟩ := serializeVisit_shape hser₂
    obtain ⟨hInv', hq', vs, Δout, -, -, hserf⟩ := traverse_ok cfg _ s₂ s' h hInv₂
    obtain ⟨hextf, -⟩ := serializeVisits_shape cfg vs s₂.idMap s'.idMap Δout hserf
    obtain ⟨Δ, hΔ⟩ := hextf
    rw [hΔ]
    refine lookup_append_some ?_
    have hzero : (getBlockId (initialState cfg).idMap cfg.entry).1 = 0 := rfl
    rw [hzero] at hlook
    exact hlook

/-! ## Example graphs -/

/-- One entry block holding `x := 1` and a `MainExit` (spec §8 example). -/
def cfgSingle : CFG := ⟨[⟨[⟨[], ["x"], .assignment ⟨["x"]⟩⟩], .mainExit⟩], 0, []⟩

/-- The two-block cycle `A → B`, `B → A`. -/
def cfgCycle : CFG := ⟨[⟨[], .jump 1⟩, ⟨[], .jump 0⟩], 0, []⟩

/-- Main entry (block 0) jumps to block 2; one function whose entry is
block 1.  Exercises the root set `[0, 1]` with a discovery before the
second root's visit. -/
def cfgRootJump : CFG :=
  ⟨[⟨[], .jump 2⟩, ⟨[], .terminated⟩, ⟨[], .terminated⟩], 0, [1]⟩

/-- Entry with a conditional jump: zero branch 1 (`Terminated`), non-zero
branch 2 (`FunctionReturn "f"`). -/
def cfgCond : CFG :=
  ⟨[⟨[], .conditionalJump "c" 1 2⟩, ⟨[], .terminated⟩, ⟨[], .functionReturn "f"⟩], 0, []⟩

/-! ## Claims about the traversal and the output -/

/-- C1: on a successful export every block reachable from the root set is
emitted exactly once — the visit sequence enumerates exactly the
reachable blocks without repetition and the output holds one block record
and one exit record per visit, in visit order; re-encountering a visited
or queued block (as in any cycle) adds nothing to the output. -/
theorem reachable_blocks_emitted_once (cfg : CFG) (h : (exportJson cfg).isSome = true) :
    (visitsOf cfg).Nodup ∧ (∀ v, v ∈ visitsOf cfg ↔ Reachable cfg v) ∧
    ∃ recs : List (Json × Json),
      exportJson cfg = some (recs.flatMap (fun p => [p.1, p.2])) ∧
      recs.length = (visitsOf cfg).length := by
  obtain ⟨s', hok⟩ := exportJson_isSome_ok h
  obtain ⟨hInv', hq', hser⟩ := exportCFG_ok_spec hok
  obtain ⟨-, recs, hout, hlen, -⟩ := serializeVisits_shape cfg s'.visits ⟨[], 0⟩ _ _ hser
  rw [visitsOf_ok hok]
  refine ⟨hInv'.visits_nodup, visits_iff_reachable hok, recs, ?_, hlen⟩
  rw [exportJson_ok hok, hout]

/-- Witness for C1 on the two-block cycle of the spec. -/
theorem reachable_blocks_emitted_once_witness :
    (visitsOf cfgCycle).Nodup ∧ (∀ v, v ∈ visitsOf cfgCycle ↔ Reachable cfgCycle v) ∧
    ∃ recs : List (Json × Json),
      exportJson cfgCycle = some (recs.flatMap (fun p => [p.1, p.2])) ∧
      recs.length = (visitsOf cfgCycle).length :=
  reachable_blocks_emitted_once cfgCycle rfl

/-- C2 counterexample: in `cfgRootJump` the root set is `[0, 1]` and the
traversal visits `0, 1, 2` in that order, yet root `1` receives ID `2`
rather than `1`: serializing block 0's exit record assigns ID `1` to the
jump target `2` before root `1` is visited, so IDs do not follow
first-visit order and the k roots do not receive `0..k-1`. -/
theorem id_not_first_visit_order :
    roots cfgRootJump = [0, 1] ∧ visitsOf cfgRootJump = [0, 1, 2] ∧
    idOf cfgRootJump 2 = some 1 ∧ idOf cfgRootJump 1 = some 2 ∧
    ¬ idOf cfgRootJump 1 = some 1 := by
  decide

/-- C2 (amended): block IDs are the consecutive integers `0, 1, 2, …` in
first-mention order — the order of the ID table, which a block enters
when `getBlockId` first runs on it: at its own serialization, or earlier
when the exit record of an earlier-visited block first names it; the main
entry receives ID `0`; and a block's ID is strictly below the ID of every
block only reachable through it. -/
theorem id_assignment_order (cfg : CFG) (h : (exportJson cfg).isSome = true) :
    (idsOf cfg).map Prod.snd = List.range (idsOf cfg).length ∧
    idOf cfg cfg.entry = some 0 ∧
    ∀ a b, OnlyReachableThrough cfg a b →
      ∃ ia ib, idOf cfg a = some ia ∧ idOf cfg b = some ib ∧ ia < ib := by
  obtain ⟨s', hok⟩ := exportJson_isSome_ok h
  obtain ⟨hInv', -, -⟩ := exportCFG_ok_spec hok
  have hids := idsOf_ok hok
  refine ⟨?_, ?_, ?_⟩
  · rw [hids, hInv'.idInv.ids_snd]
  · unfold idOf
    rw [hids]
    exact entry_id_zero hok
  · intro a b hab
    obtain ⟨ia, ib, hia, hib, hlt⟩ := ids_strict_order hok hab
    refine ⟨ia, ib, ?_, ?_, hlt⟩
    · unfold idOf
      rw [hids]
      exact hia
    · unfold idOf
      rw [hids]
      exact hib

/-- Witness for the amended C2 on `cfgRootJump`. -/
theorem id_assignment_order_witness :
    (idsOf cfgRootJump).map Prod.snd = List.range (idsOf cfgRootJump).length ∧
    idOf cfgRootJump cfgRootJump.entry = some 0 ∧
    ∀ a b, OnlyReachableThrough cfgRootJump a b →
      ∃ ia ib, idOf cfgRootJump a = some ia ∧ idOf cfgRootJump b = some ib ∧ ia < ib :=
  id_assignment_order cfgRootJump rfl

/-- C3: the export aborts — fatal internal error, no output — exactly
when some builtin call in a reachable (hence serialized) block declares a
literal-only argument position that exists in the call's argument list
but whose actual argument is not a literal value; no other input fails. -/
theorem export_fails_iff (cfg : CFG) :
    (exportCFG cfg = .fail ↔
      ∃ v, Reachable cfg v ∧ ∃ op ∈ (getBlock cfg v).operations, BadOperation op) ∧
    (exportCFG cfg = .fail → exportJson cfg = none) := by
  constructor
  · constructor
    · intro h
      exact traverse_fail cfg (exportFuel cfg) (initialState cfg) h (inv_initial cfg)
    · rintro ⟨v, hreach, op, hop, hbad⟩
      cases hc : exportCFG cfg with
      | fail => rfl
      | outOfFuel => exact absurd hc (exportCFG_ne_outOfFuel cfg)
      | ok s' =>
        exfalso
        have hvvis : v ∈ s'.visits := (visits_iff_reachable hc v).mpr hreach
        obtain ⟨idv, instrs, bj, ej, -, -, -, hmapM, -, -⟩ := record_pair_of_visit hc hvvis
        exact mapM_option_ne_none hmapM op hop ((operationToJson_eq_none_iff op).mpr hbad)
  · intro h
    unfold exportJson
    rw [h]

/-- C4: a successful export is one array alternating block record, exit
record in traversal order, and each block record is exactly
`blockRecordJson` — fields `id = "Block<id>"`, `instructions` = the
operation records in block order, `exit = "Block<id>Exit"` (its own exit
node), `type = "BasicBlock"`. -/
theorem output_is_alternating_records (cfg : CFG) (h : (exportJson cfg).isSome = true) :
    ∃ recs : List (Json × Json),
      exportJson cfg = some (recs.flatMap (fun p => [p.1, p.2])) ∧
      recs.length = (visitsOf cfg).length ∧
      ∀ pr ∈ recs.zip (visitsOf cfg), ∃ idv instrs,
        idOf cfg pr.2 = some idv ∧
        (getBlock cfg pr.2).operations.mapM operationToJson = some instrs ∧
        pr.1.1 = blockRecordJson idv instrs := by
  obtain ⟨s', hok⟩ := exportJson_isSome_ok h
  obtain ⟨hInv', hq', hser⟩ := exportCFG_ok_spec hok
  obtain ⟨-, recs, hout, hlen, hfacts⟩ := serializeVisits_shape cfg s'.visits ⟨[], 0⟩ _ _ hser
  rw [visitsOf_ok hok]
  refine ⟨recs, ?_, hlen, ?_⟩
  · rw [exportJson_ok hok, hout]
  · intro pr hpr
    obtain ⟨idv, instrs, hlook, hmapM, hbj, -⟩ := hfacts pr hpr
    refine ⟨idv, instrs, ?_, hmapM, hbj⟩
    unfold idOf
    rw [idsOf_ok hok]
    exact hlook

/-- Witness for C4 on the one-block example of the spec. -/
theorem output_is_alternating_records_witness :
    ∃ recs : List (Json × Json),
      exportJson cfgSingle = some (recs.flatMap (fun p => [p.1, p.2])) ∧
      recs.length = (visitsOf cfgSingle).length ∧
      ∀ pr ∈ recs.zip (visitsOf cfgSingle), ∃ idv instrs,
        idOf cfgSingle pr.2 = some idv ∧
        (getBlock cfgSingle pr.2).operations.mapM operationToJson = some instrs ∧
        pr.1.1 = blockRecordJson idv instrs :=
  output_is_alternating_records cfgSingle rfl

/-- C5: a visited block ending in `ConditionalJump(zero=z, nonZero=nz,
cond=slot)` has an exit record whose `exit` field is exactly
`["Block<id z>", "Block<id nz>"]` — zero branch first — whose `cond` is
the one-element canonical-string list of the condition slot, whose `type`
is `"ConditionalJump"`, and both branches are traversed. -/
theorem conditional_jump_exit_record (cfg : CFG) (v : Nat) (slot : StackSlot) (z nz : Nat)
    (h : (exportJson cfg).isSome = true) (hv : v ∈ visitsOf cfg)
    (hexit : (getBlock cfg v).exit = .conditionalJump slot z nz) :
    ∃ j idz idnz, exitRecordOf cfg v = some j ∧
      idOf cfg z = some idz ∧ idOf cfg nz = some idnz ∧
      j.getField "exit" = some (.arr [.str ("Block" ++ toString idz),
        .str ("Block" ++ toString idnz)]) ∧
      j.getField "cond" = some (.arr [.str (stackSlotToString slot)]) ∧
      j.getField "type" = some (.str "ConditionalJump") ∧
      z ∈ visitsOf cfg ∧ nz ∈ visitsOf cfg := by
  obtain ⟨s', hok⟩ := exportJson_isSome_ok h
  rw [visitsOf_ok hok] at hv
  obtain ⟨idv, instrs, bj, ej, hbrec, herec, hlook, hmapM, hbj, hshape⟩ :=
    record_pair_of_visit hok hv
  unfold ExitShape at hshape
  rw [hexit] at hshape
  obtain ⟨idz, idnz, hlz, hlnz, hej⟩ := hshape
  subst hej
  have hvreach : Reachable cfg v := (visits_iff_reachable hok v).mp hv
  have hzsucc : z ∈ successors cfg v := by simp [successors, hexit, exitSuccessors]
  have hnzsucc : nz ∈ successors cfg v := by simp [successors, hexit, exitSuccessors]
  refine ⟨_, idz, idnz, herec, ?_, ?_, rfl, rfl, rfl, ?_, ?_⟩
  · unfold idOf
    rw [idsOf_ok hok]
    exact hlz
  · unfold idOf
    rw [idsOf_ok hok]
    exact hlnz
  · rw [visitsOf_ok hok]
    exact (visits_iff_reachable hok z).mpr (Reachable.step hvreach hzsucc)
  · rw [visitsOf_ok hok]
    exact (visits_iff_reachable hok nz).mpr (Reachable.step hvreach hnzsucc)

/-- Witness for C5 on `cfgCond`. -/
theorem conditional_jump_exit_record_witness :
    ∃ j idz idnz, exitRecordOf cfgCond 0 = some j ∧
      idOf cfgCond 1 = some idz ∧ idOf cfgCond 2 = some idnz ∧
      j.getField "exit" = some (.arr [.str ("Block" ++ toString idz),
        .str ("Block" ++ toString idnz)]) ∧
      j.getField "cond" = some (.arr [.str (stackSlotToString "c")]) ∧
      j.getField "type" = some (.str "ConditionalJump") ∧
      (1 : Nat) ∈ visitsOf cfgCond ∧ (2 : Nat) ∈ visitsOf cfgCond :=
  conditional_jump_exit_record cfgCond 0 "c" 1 2 rfl (by decide) rfl

/-- C8: a visited block ending in `MainExit`, `FunctionReturn` or
`Terminated` is a traversal leaf — its exit hands no successors to the
worklist — and its exit record's `exit` field is the one-element list
referencing the block itself; `instructions` holds exactly the returning
function's name for `FunctionReturn` and is empty for the other two. -/
theorem leaf_exit_record (cfg : CFG) (v : Nat)
    (h : (exportJson cfg).isSome = true) (hv : v ∈ visitsOf cfg)
    (hleaf : (getBlock cfg v).exit = .mainExit ∨
      (∃ f, (getBlock cfg v).exit = .functionReturn f) ∨
      (getBlock cfg v).exit = .terminated) :
    successors cfg v = [] ∧
    ∃ j idv, exitRecordOf cfg v = some j ∧ idOf cfg v = some idv ∧
      j.getField "exit" = some (.arr [.str ("Block" ++ toString idv)]) ∧
      (∀ f, (getBlock cfg v).exit = .functionReturn f →
        j.getField "instructions" = some (.arr [.str f])) ∧
      ((getBlock cfg v).exit = .mainExit ∨ (getBlock cfg v).exit = .terminated →
        j.getField "instructions" = some (.arr [])) := by
  obtain ⟨s', hok⟩ := exportJson_isSome_ok h
  rw [visitsOf_ok hok] at hv
  obtain ⟨idv, instrs, bj, ej, hbrec, herec, hlook, hmapM, hbj, hshape⟩ :=
    record_pair_of_visit hok hv
  have hid : idOf cfg v = some idv := by
    unfold idOf
    rw [idsOf_ok hok]
    exact hlook
  unfold ExitShape at hshape
  rcases hleaf with hexit | ⟨f, hexit⟩ | hexit
  · rw [hexit] at hshape
    subst hshape
    refine ⟨by simp [successors, hexit, exitSuccessors], _, idv, herec, hid, rfl, ?_, ?_⟩
    · intro f hf
      rw [hexit] at hf
      cases hf
    · intro _
      rfl
  · rw [hexit] at hshape
    subst hshape
    refine ⟨by simp [successors, hexit, exitSuccessors], _, idv, herec, hid, rfl, ?_, ?_⟩
    · intro f' hf
      rw [hexit] at hf
      cases hf
      rfl
    · intro hcon
      rcases hcon with hcon | hcon <;> rw [hexit] at hcon <;> cases hcon
  · rw [hexit] at hshape
    subst hshape
    refine ⟨by simp [successors, hexit, exitSuccessors], _, idv, herec, hid, rfl, ?_, ?_⟩
    · intro f hf
      rw [hexit] at hf
      cases hf
    · intro _
      rfl

/-- Witness for C8 on the `FunctionReturn` block of `cfgCond`. -/
theorem leaf_exit_record_witness :
    successors cfgCond 2 = [] ∧
    ∃ j idv, exitRecordOf cfgCond 2 = some j ∧ idOf cfgCond 2 = some idv ∧
      j.getField "exit" = some (.arr [.str ("Block" ++ toString idv)]) ∧
      (∀ f, (getBlock cfgCond 2).exit = .functionReturn f →
        j.getField "instructions" = some (.arr [.str f])) ∧
      ((getBlock cfgCond 2).exit = .mainExit ∨ (getBlock cfgCond 2).exit = .terminated →
        j.getField "instructions" = some (.arr [])) :=
  leaf_exit_record cfgCond 2 rfl (by decide) (Or.inr (Or.inl ⟨"f", rfl⟩))

/-- C9: the export always terminates — the fuelled worklist loop never
exhausts its budget — and it visits each block at most once, all of them
reachable, so the exporter is a total function of its input. -/
theorem export_terminates (cfg : CFG) :
    exportCFG cfg ≠ .outOfFuel ∧ (visitsOf cfg).Nodup ∧
      ∀ v ∈ visitsOf cfg, Reachable cfg v := by
  refine ⟨exportCFG_ne_outOfFuel cfg, ?_⟩
  cases hc : exportCFG cfg with
  | ok s' =>
    obtain ⟨hInv', -, -⟩ := exportCFG_ok_spec hc
    rw [visitsOf_ok hc]
    exact ⟨hInv'.visits_nodup, hInv'.visits_reach⟩
  | fail =>
    unfold visitsOf
    rw [hc]
    exact ⟨List.nodup_nil, by simp⟩
  | outOfFuel =>
    unfold visitsOf
    rw [hc]
    exact ⟨List.nodup_nil, by simp⟩

end YulCFGExport
